import Mathlib

/-!
# Klondike solitaire rules engine (`src/game.js`)

A shallow embedding of the classes `Card`, `Pile` and `Game` of `src/game.js`.

* JavaScript objects are compared by identity (`indexOf`, `===`), so `Card`
  objects live in an explicit heap `Nat → Card`; piles, the deck and the
  selection hold references (`Nat`).  `new Card(..)` allocates at `nextId`.
* The thirteen `Pile` objects are created once by the constructor and never
  replaced; they are named by `PileId`, and `pile.cards` is `Game.piles`.
* DOM work (elements, positions, the move counter text) is not modelled.
  The `hidden` class of a card element is what `updateVisibility` derives
  from `faceUp`; the drag-start guard reads `faceUp`.
* A handler that ends in an uncaught `TypeError` returns `none`.
-/

set_option autoImplicit false
set_option maxRecDepth 100000

namespace Solitaire

/-! ## Data model -/

inductive Suit where
  | hearts
  | diamonds
  | clubs
  | spades
  deriving DecidableEq, Repr

inductive Color where
  | red
  | black
  deriving DecidableEq, Repr

/-- The fields of a `Card` object read by the engine (`element` is DOM). -/
structure Card where
  suit : Suit
  rank : Int
  faceUp : Bool
  deriving DecidableEq, Repr

/-- Getter `color`: red for hearts and diamonds, black otherwise. -/
def Card.color (c : Card) : Color :=
  if c.suit = Suit.hearts ∨ c.suit = Suit.diamonds then Color.red else Color.black

/-- The immutable identity of a card: its suit and rank. -/
def Card.key (c : Card) : Suit × Int := (c.suit, c.rank)

inductive PileType where
  | tableau
  | foundation
  | stock
  | waste
  deriving DecidableEq, Repr

/-- The thirteen `Pile` objects built by the `Game` constructor. -/
inductive PileId where
  | tableau (i : Fin 7)
  | foundation (i : Fin 4)
  | stock
  | waste
  deriving DecidableEq, Repr

/-- Field `type` of a pile, fixed at construction. -/
def PileId.type : PileId → PileType
  | PileId.tableau _ => PileType.tableau
  | PileId.foundation _ => PileType.foundation
  | PileId.stock => PileType.stock
  | PileId.waste => PileType.waste

/-- The object built by `saveState`: for every pile the plain
`{suit, rank, faceUp}` copies of its cards, bottom to top. -/
abbrev Snapshot := PileId → List Card

/-- State of the `Game` object.  `history` is a stack whose head is the most
recently pushed snapshot.  `alerts` counts the calls of `alert` by `checkWin`. -/
structure Game where
  heap : Nat → Card
  nextId : Nat
  deck : List Nat
  piles : PileId → List Nat
  selectedCard : Option Nat
  selectedPile : Option PileId
  selectedCards : List Nat
  moveCount : Int
  history : List Snapshot
  alerts : Nat

/-- The cards of a pile as values, bottom to top. -/
def Game.cards (g : Game) (p : PileId) : List Card :=
  (g.piles p).map g.heap

/-- The pile contents and orientations of all thirteen piles. -/
def Game.view (g : Game) : Snapshot :=
  fun p => g.cards p

/-- All pile ids: tableau 0..6, foundations 0..3, stock, waste. -/
def allPiles : List PileId :=
  (List.finRange 7).map PileId.tableau ++ (List.finRange 4).map PileId.foundation
    ++ [PileId.stock, PileId.waste]

/-- The card references of all thirteen piles taken together. -/
def Game.allRefs (g : Game) : List Nat :=
  allPiles.flatMap g.piles

/-- The cards of all piles of a snapshot taken together. -/
def snapCards (s : Snapshot) : List Card :=
  allPiles.flatMap s

/-! ## `Card` and `Pile` methods -/

/-- `card.flip()`. -/
def flip (g : Game) (card : Nat) : Game :=
  { g with
    heap := Function.update g.heap card { (g.heap card) with faceUp := !(g.heap card).faceUp } }

/-- `pile.addCard(card, faceUp)`: set the orientation, push on top. -/
def addCard (g : Game) (p : PileId) (card : Nat) (faceUp : Bool) : Game :=
  { g with
    heap := Function.update g.heap card { (g.heap card) with faceUp := faceUp },
    piles := Function.update g.piles p (g.piles p ++ [card]) }

/-- `pile.removeCard(card)`: `indexOf` then `splice(index, 1)`; nothing
happens when the card is absent. -/
def removeCard (g : Game) (p : PileId) (card : Nat) : Game :=
  { g with piles := Function.update g.piles p ((g.piles p).erase card) }

/-- `pile.addCards(cards)`. -/
def addCards (g : Game) (p : PileId) (cards : List Nat) : Game :=
  cards.foldl (fun g card => addCard g p card true) g

/-- `pile.removeCards(cards)`. -/
def removeCards (g : Game) (p : PileId) (cards : List Nat) : Game :=
  cards.foldl (fun g card => removeCard g p card) g

/-- `pile.getTopCard()`; `none` is `undefined`. -/
def getTopCard (g : Game) (p : PileId) : Option Nat :=
  (g.piles p).getLast?

/-! ## Deck -/

def suits : List Suit := [Suit.hearts, Suit.diamonds, Suit.clubs, Suit.spades]

/-- `Array.from({ length: 13 }, (_, i) => i + 1)`. -/
def ranks : List Int := (List.range 13).map (fun (i : Nat) => (i : Int) + 1)

/-- The 52 canonical (suit, rank) pairs, suits outer, ranks inner. -/
def fullDeck : List (Suit × Int) :=
  suits.flatMap (fun suit => ranks.map (fun rank => (suit, rank)))

/-- `this.deck.push(new Card(suit, rank))`. -/
def pushNewCard (suit : Suit) (g : Game) (rank : Int) : Game :=
  { g with
    heap := Function.update g.heap g.nextId { suit := suit, rank := rank, faceUp := false },
    nextId := g.nextId + 1,
    deck := g.deck ++ [g.nextId] }

/-- The random source: for every `i` the index `j = floor(random() * (i + 1))`,
which lies in `[0, i]`. -/
abbrev Rand := (i : Nat) → Fin (i + 1)

/-- `[deck[i], deck[j]] = [deck[j], deck[i]]`. -/
def swap (deck : List Nat) (i j : Nat) : List Nat :=
  (deck.set i (deck.getD j 0)).set j (deck.getD i 0)

/-- The loop of `shuffleDeck`, entered with counter `i`; it runs while `i > 0`. -/
def shuffleLoop (rnd : Rand) : Nat → List Nat → List Nat
  | 0, deck => deck
  | i + 1, deck => shuffleLoop rnd i (swap deck (i + 1) (rnd (i + 1)).val)

/-- `shuffleDeck()`. -/
def shuffleDeck (g : Game) (rnd : Rand) : Game :=
  { g with deck := shuffleLoop rnd (g.deck.length - 1) g.deck }

/-- `createDeck()`. -/
def createDeck (g : Game) (rnd : Rand) : Game :=
  shuffleDeck
    (suits.foldl (fun g suit => ranks.foldl (pushNewCard suit) g) { g with deck := [] })
    rnd

/-- The pairs `(i, j)` visited by the nested loops of `dealCards`, in order. -/
def dealSlots : List (Fin 7 × Nat) :=
  (List.finRange 7).flatMap (fun i => (List.range (i.val + 1)).map (fun j => (i, j)))

/-- One iteration of the inner tableau loop of `dealCards`; the state carries
`cardIndex`.  `deck[cardIndex]` being `undefined` makes `addCard` throw. -/
def dealStep (st : Game × Nat) (ij : Fin 7 × Nat) : Option (Game × Nat) :=
  match st.1.deck[st.2]? with
  | none => none
  | some card =>
    some (addCard st.1 (PileId.tableau ij.1) card (decide (ij.2 = ij.1.val)), st.2 + 1)

/-- `dealCards()`. -/
def dealCards (g : Game) : Option Game :=
  match dealSlots.foldlM dealStep ({ g with piles := fun _ => [] }, 0) with
  | none => none
  | some (g1, cardIndex) =>
    some ((g1.deck.drop cardIndex).foldl (fun g card => addCard g PileId.stock card false) g1)

/-- `newGame()`. -/
def newGame (g : Game) (rnd : Rand) : Option Game :=
  match dealCards (createDeck g rnd) with
  | none => none
  | some g1 => some { g1 with moveCount := 0, history := [] }

/-! ## Snapshots and undo -/

/-- `saveState()`. -/
def saveState (g : Game) : Game :=
  { g with history := g.view :: g.history }

/-- Body of the inner `forEach` of `restoreState`:
`new Card(pc.suit, pc.rank)`, `card.faceUp = pc.faceUp`, `addCard(card, pc.faceUp)`. -/
def restoreCard (p : PileId) (g : Game) (pc : Card) : Game :=
  addCard
    { g with
      heap := Function.update g.heap g.nextId { suit := pc.suit, rank := pc.rank, faceUp := pc.faceUp },
      nextId := g.nextId + 1 }
    p g.nextId pc.faceUp

/-- Rebuild one pile from its snapshot. -/
def restorePile (state : Snapshot) (g : Game) (p : PileId) : Game :=
  (state p).foldl (restoreCard p) g

/-- `restoreState(state)`: empty all piles, then rebuild the tableau piles, the
foundations, the stock and the waste, in that order. -/
def restoreState (g : Game) (state : Snapshot) : Game :=
  allPiles.foldl (restorePile state) { g with piles := fun _ => [] }

/-- `undo()`. -/
def undo (g : Game) : Game :=
  match g.history with
  | [] => g
  | lastState :: rest =>
    let g1 := restoreState { g with history := rest } lastState
    { g1 with moveCount := g1.moveCount - 1 }

/-- `incrementMove()`. -/
def incrementMove (g : Game) : Game :=
  { g with moveCount := g.moveCount + 1 }

/-! ## Stock and waste -/

/-- The `while (this.waste.cards.length > 0)` loop of `drawFromStock`.  Every
iteration removes the top card of the waste, so `fuel` equal to the length of
the waste is enough. -/
def recycleLoop : Nat → Game → Game
  | 0, g => g
  | fuel + 1, g =>
    if (g.piles PileId.waste).length > 0 then
      match getTopCard g PileId.waste with
      | none => g
      | some card =>
        recycleLoop fuel
          (addCard (flip (removeCard g PileId.waste card) card) PileId.stock card false)
    else g

/-- `drawFromStock()`. -/
def drawFromStock (g : Game) : Game :=
  let g1 := saveState g
  if (g1.piles PileId.stock).length = 0 then
    recycleLoop (g1.piles PileId.waste).length g1
  else
    match getTopCard g1 PileId.stock with
    | none => g1
    | some card =>
      incrementMove (addCard (flip (removeCard g1 PileId.stock card) card) PileId.waste card true)

/-! ## Moves -/

/-- `canMove(card, sourcePile, targetPile)`; `sourcePile` may be `null`. -/
def canMove (g : Game) (card : Nat) (sourcePile : Option PileId) (targetPile : PileId) : Bool :=
  if sourcePile = some targetPile then false
  else
    match targetPile.type with
    | PileType.foundation =>
      if g.selectedCards.length > 1 then false
      else
        match getTopCard g targetPile with
        | none => decide ((g.heap card).rank = 1)
        | some top =>
          decide ((g.heap card).suit = (g.heap top).suit)
            && decide ((g.heap card).rank = (g.heap top).rank + 1)
    | PileType.tableau =>
      match getTopCard g targetPile with
      | none => decide ((g.heap card).rank = 13)
      | some top =>
        decide ((g.heap card).color ≠ (g.heap top).color)
          && decide ((g.heap card).rank = (g.heap top).rank - 1)
    | _ => false

/-- The condition tested by `checkWin()`. -/
def checkWin (g : Game) : Bool :=
  (List.finRange 4).all (fun i => decide ((g.piles (PileId.foundation i)).length = 13))

/-- `checkWin()`: `alert` when the condition holds. -/
def runCheckWin (g : Game) : Game :=
  if checkWin g then { g with alerts := g.alerts + 1 } else g

/-- The three assignments that end `handleDrop`. -/
def clearSelection (g : Game) : Game :=
  { g with selectedCard := none, selectedPile := none, selectedCards := [] }

/-- The reveal step of `handleDrop`. -/
def reveal (g : Game) (sourcePile : PileId) : Game :=
  if sourcePile.type = PileType.tableau ∧ (g.piles sourcePile).length > 0 then
    match getTopCard g sourcePile with
    | none => g
    | some top => if !(g.heap top).faceUp then flip g top else g
  else g

/-- The body of the `if (this.canMove(..))` of `handleDrop`. -/
def applyMove (g : Game) (sourcePile targetPile : PileId) : Game :=
  let g1 := saveState g
  let g2 := removeCards g1 sourcePile g1.selectedCards
  let g3 := addCards g2 targetPile g2.selectedCards
  runCheckWin (incrementMove (reveal g3 sourcePile))

/-- `handleDrop(e, targetPile)`.  With a `null` source pile and a legal move
`sourcePile.removeCards` throws. -/
def handleDrop (g : Game) (targetPile : PileId) : Option Game :=
  match g.selectedCard, g.selectedCards with
  | none, _ => some g
  | some _, [] => some g
  | some _, leadCard :: _ =>
    if canMove g leadCard g.selectedPile targetPile then
      match g.selectedPile with
      | none => none
      | some sourcePile => some (clearSelection (applyMove g sourcePile targetPile))
    else some (clearSelection g)

/-! ## Selection (drag start) -/

/-- `cardsFindByElement(element)`: search stock, waste, foundations, tableau. -/
def cardsFindByElement (g : Game) (element : Nat) : Option Nat :=
  (g.piles PileId.stock ++ g.piles PileId.waste
    ++ (List.finRange 4).flatMap (fun i => g.piles (PileId.foundation i))
    ++ (List.finRange 7).flatMap (fun i => g.piles (PileId.tableau i))).find?
      (fun c => decide (c = element))

/-- `findPileOfCard(cardElement)`: search the tableau piles, the waste, the
foundations for the pile whose element contains the card element. -/
def findPileOfCard (g : Game) (element : Nat) : Option PileId :=
  ((List.finRange 7).map PileId.tableau ++ [PileId.waste]
    ++ (List.finRange 4).map PileId.foundation).find?
      (fun p => decide (element ∈ g.piles p))

/-- `cards.indexOf(card)`, `-1` when absent. -/
def indexOf (cards : List Nat) (card : Nat) : Int :=
  if card ∈ cards then (cards.indexOf card : Int) else -1

/-- `cards.slice(index)`; a negative index counts from the end. -/
def slice (cards : List Nat) (index : Int) : List Nat :=
  if index < 0 then cards.drop (cards.length - index.natAbs) else cards.drop index.toNat

/-- The `dragstart` handler on the element of card `element`.  A face-down
(hidden) card leaves the selection as it is.  A card that lies in none of the
searched piles makes `this.selectedPile.type` throw; `cardsFindByElement`
cannot fail once `findPileOfCard` has succeeded. -/
def dragStart (g : Game) (element : Nat) : Option Game :=
  if (g.heap element).faceUp then
    match findPileOfCard g element with
    | none => none
    | some pile =>
      match cardsFindByElement g element with
      | none => none
      | some card =>
        if pile.type = PileType.tableau then
          some { g with
            selectedCard := some element,
            selectedPile := some pile,
            selectedCards :=
              (slice (g.piles pile) (indexOf (g.piles pile) card)).filter
                (fun c => (g.heap c).faceUp) }
        else
          some { g with
            selectedCard := some element,
            selectedPile := some pile,
            selectedCards := [card] }
  else some g

/-! ## Predicates used by the statements -/

/-- Heap in which the cards of `cards` have their orientation set to `b`. -/
def setFaceUp (heap : Nat → Card) (cards : List Nat) (b : Bool) : Nat → Card :=
  fun c => if c ∈ cards then { (heap c) with faceUp := b } else heap c

/-- Exclusive ownership: no card object occurs twice in the piles. -/
def Game.WF (g : Game) : Prop := g.allRefs.Nodup

instance Game.decidableWF (g : Game) : Decidable g.WF := by
  unfold Game.WF
  infer_instance

/-- All references held by piles were allocated before `nextId`. -/
def Game.Fresh (g : Game) : Prop := ∀ p, ∀ c ∈ g.piles p, c < g.nextId

/-- The deck holds only references allocated before `nextId`. -/
def Game.DeckFresh (g : Game) : Prop := ∀ c ∈ g.deck, c < g.nextId

/-- A sequence of `addCard` calls, each given by pile, card and orientation. -/
def applyOps (g : Game) (ops : List (PileId × Nat × Bool)) : Game :=
  ops.foldl (fun g o => addCard g o.1 o.2.1 o.2.2) g

/-- The `addCard` calls made by `dealCards` on a deck, in order. -/
def dealOps (deck : List Nat) : List (PileId × Nat × Bool) :=
  (dealSlots.zip deck).map (fun x => (PileId.tableau x.1.1, x.2, decide (x.1.2 = x.1.1.val)))
    ++ (deck.drop 28).map (fun c => (PileId.stock, c, false))

/-- The state after a drag start that selected `cards` of pile `pile` by
dragging the card `element`. -/
def select (g : Game) (element : Nat) (pile : PileId) (cards : List Nat) : Game :=
  { g with selectedCard := some element, selectedPile := some pile, selectedCards := cards }

/-- Conservation: the cards of all piles of a snapshot are exactly the 52
canonical (suit, rank) pairs, each once. -/
def Conserved (s : Snapshot) : Prop :=
  ((snapCards s).map Card.key).Perm fullDeck

/-- A foundation pile: `(s,1), (s,2), ..., (s,k)` bottom to top, `k ≤ 13`. -/
def FoundationOrdered (cards : List Card) : Prop :=
  ∃ (suit : Suit) (k : Nat), k ≤ 13 ∧
    cards.map Card.key = (List.range k).map (fun (i : Nat) => (suit, (i : Int) + 1))

/-- Card `above` may lie directly on `below` in a tableau run. -/
def Descends (below above : Card) : Prop :=
  above.rank = below.rank - 1 ∧ above.color ≠ below.color

/-- A tableau pile: face-down cards, then a face-up run that descends by one
with alternating colours. -/
def TableauOrdered (cards : List Card) : Prop :=
  ∃ down up : List Card, cards = down ++ up ∧ (∀ c ∈ down, c.faceUp = false) ∧
    (∀ c ∈ up, c.faceUp = true) ∧ up.Chain' Descends

/-- The selection rule: the dragged card is visible and is a card of a tableau
pile, or the top card of the waste or of a foundation. -/
def Selectable (g : Game) (element : Nat) : Prop :=
  (g.heap element).faceUp = true ∧
    ((∃ i : Fin 7, element ∈ g.piles (PileId.tableau i)) ∨
      getTopCard g PileId.waste = some element ∨
      ∃ i : Fin 4, getTopCard g (PileId.foundation i) = some element)

/-- One user action: a draw, an undo, or a drag that follows the selection
rule followed by a drop on some pile. -/
def Step (g g1 : Game) : Prop :=
  g1 = drawFromStock g ∨ g1 = undo g ∨
    ∃ (element : Nat) (targetPile : PileId) (g2 : Game),
      Selectable g element ∧ dragStart g element = some g2 ∧
        handleDrop g2 targetPile = some g1

/-- States reachable from `newGame` (from any earlier state, with any shuffle
outcome) by a sequence of user actions. -/
def Reachable (g : Game) : Prop :=
  ∃ (g0 : Game) (rnd : Rand) (g1 : Game),
    newGame g0 rnd = some g1 ∧ Relation.ReflTransGen Step g1 g

/-- The pile invariants of a snapshot. -/
structure Good (s : Snapshot) : Prop where
  conserved : Conserved s
  foundation : ∀ i : Fin 4, FoundationOrdered (s (PileId.foundation i))
  tableau : ∀ i : Fin 7, TableauOrdered (s (PileId.tableau i))

/-- The invariant of reachable states. -/
structure Inv (g : Game) : Prop where
  wf : g.WF
  good : Good g.view
  hist : ∀ s ∈ g.history, Good s

/-! ## States used to instantiate the statements -/

/-- The state of the `Game` object when the constructor calls `newGame`. -/
def blankGame : Game :=
  { heap := fun _ => { suit := Suit.hearts, rank := 0, faceUp := false }
    nextId := 0
    deck := []
    piles := fun _ => []
    selectedCard := none
    selectedPile := none
    selectedCards := []
    moveCount := 0
    history := []
    alerts := 0 }

/-- A random source that always swaps a card with itself. -/
def idRand : Rand := fun i => ⟨i, Nat.lt_succ_self i⟩

/-- The game dealt from the unshuffled deck. -/
def startGame : Game := (newGame blankGame idRand).getD blankGame

/-- A won position: card `c` is the card number `c` of the canonical deck,
face-up, and foundation `i` holds the thirteen cards of suit number `i`. -/
def wonGame : Game :=
  { heap := fun c => { suit := suits.getD (c / 13) Suit.hearts, rank := (c % 13 : Nat) + 1,
                       faceUp := true }
    nextId := 52
    deck := List.range 52
    piles := fun p =>
      match p with
      | PileId.foundation i => (List.range 13).map (fun k => 13 * i.val + k)
      | _ => []
    selectedCard := none
    selectedPile := none
    selectedCards := []
    moveCount := 120
    history := []
    alerts := 1 }

/-- Heap of the example states: card 0 is the king of spades, card 1 the queen
of hearts, both face-up; every other card is a face-down ace of clubs. -/
def exampleHeap : Nat → Card := fun c =>
  if c = 0 then { suit := Suit.spades, rank := 13, faceUp := true }
  else if c = 1 then { suit := Suit.hearts, rank := 12, faceUp := true }
  else { suit := Suit.clubs, rank := 1, faceUp := false }

/-- Example state: the king on tableau pile 0, the queen on the waste and
selected, one card in the stock. -/
def exampleGame : Game :=
  { heap := exampleHeap
    nextId := 3
    deck := []
    piles := fun p =>
      if p = PileId.tableau 0 then [0]
      else if p = PileId.waste then [1]
      else if p = PileId.stock then [2]
      else []
    selectedCard := some 1
    selectedPile := some PileId.waste
    selectedCards := [1]
    moveCount := 0
    history := []
    alerts := 0 }

/-- Example state: three cards in the stock, nothing else. -/
def exampleStock : Game :=
  { heap := exampleHeap
    nextId := 3
    deck := []
    piles := fun p => if p = PileId.stock then [0, 1, 2] else []
    selectedCard := none
    selectedPile := none
    selectedCards := []
    moveCount := 0
    history := []
    alerts := 0 }

/-- Example state whose deck holds the 52 references 0..51. -/
def exampleDeck : Game :=
  { exampleStock with deck := List.range 52 }

/-- Example state for the reveal: tableau pile 0 holds a face-down card under
the queen of hearts, tableau pile 1 holds the king of spades, and the queen is
selected. -/
def exampleReveal : Game :=
  { heap := exampleHeap
    nextId := 3
    deck := []
    piles := fun p =>
      if p = PileId.tableau 0 then [2, 1]
      else if p = PileId.tableau 1 then [0]
      else []
    selectedCard := some 1
    selectedPile := some (PileId.tableau 0)
    selectedCards := [1]
    moveCount := 0
    history := []
    alerts := 0 }

/-! ## Lemmas on the pile operations -/

@[simp] theorem setFaceUp_nil (heap : Nat → Card) (b : Bool) : setFaceUp heap [] b = heap := by
  funext c
  simp [setFaceUp]

theorem removeCards_eq (g : Game) (p : PileId) (cards : List Nat) :
    removeCards g p cards =
      { g with piles := Function.update g.piles p ((g.piles p).diff cards) } := by
  induction cards generalizing g with
  | nil => simp [removeCards]
  | cons c cs ih =>
    have h : removeCards g p (c :: cs) = removeCards (removeCard g p c) p cs := rfl
    rw [h, ih]
    simp [removeCard]

theorem addCards_eq (g : Game) (p : PileId) (cards : List Nat) :
    addCards g p cards =
      { g with
        heap := setFaceUp g.heap cards true,
        piles := Function.update g.piles p (g.piles p ++ cards) } := by
  induction cards generalizing g with
  | nil =>
    simp [addCards]
  | cons c cs ih =>
    have h : addCards g p (c :: cs) = addCards (addCard g p c true) p cs := rfl
    rw [h, ih]
    simp only [addCard, Function.update_same, Function.update_idem, List.append_assoc,
      List.singleton_append]
    congr 1
    funext x
    simp only [setFaceUp, List.mem_cons]
    by_cases hx : x ∈ cs
    · by_cases hxc : x = c
      · subst hxc; simp [hx]
      · simp [hx, hxc, Function.update_noteq hxc]
    · by_cases hxc : x = c
      · subst hxc; simp [hx]
      · simp [hx, hxc, Function.update_noteq hxc]


theorem mem_allPiles (p : PileId) : p ∈ allPiles := by
  cases p with
  | tableau i => simp [allPiles]
  | foundation i => simp [allPiles]
  | stock => simp [allPiles]
  | waste => simp [allPiles]

theorem allPiles_nodup : allPiles.Nodup := by decide

theorem wf_iff (g : Game) :
    g.WF ↔ (∀ p, (g.piles p).Nodup) ∧
      (∀ p q, p ≠ q → List.Disjoint (g.piles p) (g.piles q)) := by
  unfold Game.WF Game.allRefs
  rw [List.nodup_flatMap]
  constructor
  · rintro ⟨h1, h2⟩
    refine ⟨fun p => h1 p (mem_allPiles p), fun p q hpq => ?_⟩
    have hsym : Symmetric (fun a b : PileId => List.Disjoint (g.piles a) (g.piles b)) :=
      fun a b h => h.symm
    exact h2.forall hsym (mem_allPiles p) (mem_allPiles q) hpq
  · rintro ⟨h1, h2⟩
    exact ⟨fun p _ => h1 p, allPiles_nodup.pairwise_of_forall_ne (fun p _ q _ hpq => h2 p q hpq)⟩

theorem diff_run {α : Type} [DecidableEq α] (a sel b : List α) (h : (a ++ sel ++ b).Nodup) :
    (a ++ sel ++ b).diff sel = a ++ b := by
  rw [h.diff_eq_filter]
  have h' := h
  rw [List.append_assoc, List.nodup_append] at h'
  obtain ⟨ha, hsb, hd1⟩ := h'
  rw [List.nodup_append] at hsb
  obtain ⟨hs, hb, hd2⟩ := hsb
  simp only [List.filter_append]
  have e1 : a.filter (fun x => decide (x ∉ sel)) = a := by
    rw [List.filter_eq_self]
    intro x hx
    have : x ∉ sel := fun hxs => hd1 hx (List.mem_append_left _ hxs)
    simpa using this
  have e2 : sel.filter (fun x => decide (x ∉ sel)) = [] := by
    rw [List.filter_eq_nil_iff]
    intro x hx
    simpa using hx
  have e3 : b.filter (fun x => decide (x ∉ sel)) = b := by
    rw [List.filter_eq_self]
    intro x hx
    have : x ∉ sel := fun hxs => hd2 hxs hx
    simpa using this
  rw [e1, e2, e3]
  simp


@[simp] theorem flip_piles (g : Game) (c : Nat) : (flip g c).piles = g.piles := rfl
@[simp] theorem flip_history (g : Game) (c : Nat) : (flip g c).history = g.history := rfl
@[simp] theorem flip_moveCount (g : Game) (c : Nat) : (flip g c).moveCount = g.moveCount := rfl

theorem flip_heap_of_ne (g : Game) (c x : Nat) (h : x ≠ c) : (flip g c).heap x = g.heap x := by
  simp [flip, Function.update_noteq h]

theorem flip_heap_key (g : Game) (c x : Nat) : ((flip g c).heap x).key = (g.heap x).key := by
  by_cases h : x = c
  · subst h; simp [flip, Card.key]
  · rw [flip_heap_of_ne g c x h]

theorem reveal_cases (g : Game) (p : PileId) :
    reveal g p = g ∨
      ∃ top, getTopCard g p = some top ∧ p.type = PileType.tableau ∧
        (g.heap top).faceUp = false ∧ reveal g p = flip g top := by
  unfold reveal
  split
  · next h =>
    cases ht : getTopCard g p with
    | none => left; simp
    | some top =>
      by_cases hf : (g.heap top).faceUp = true
      · left; simp [hf]
      · right
        refine ⟨top, rfl, h.1, by simpa using hf, ?_⟩
        simp [hf]
  · left; rfl

@[simp] theorem reveal_piles (g : Game) (p : PileId) : (reveal g p).piles = g.piles := by
  rcases reveal_cases g p with h | ⟨top, _, _, _, h⟩
  · rw [h]
  · rw [h]; rfl

@[simp] theorem reveal_history (g : Game) (p : PileId) : (reveal g p).history = g.history := by
  rcases reveal_cases g p with h | ⟨top, _, _, _, h⟩
  · rw [h]
  · rw [h]; rfl

@[simp] theorem reveal_moveCount (g : Game) (p : PileId) :
    (reveal g p).moveCount = g.moveCount := by
  rcases reveal_cases g p with h | ⟨top, _, _, _, h⟩
  · rw [h]
  · rw [h]; rfl

theorem reveal_heap_key (g : Game) (p : PileId) (x : Nat) :
    ((reveal g p).heap x).key = (g.heap x).key := by
  rcases reveal_cases g p with h | ⟨top, _, _, _, h⟩ <;> rw [h]
  exact flip_heap_key g top x

theorem reveal_heap_of_not_mem (g : Game) (p : PileId) (x : Nat) (hx : x ∉ g.piles p) :
    (reveal g p).heap x = g.heap x := by
  rcases reveal_cases g p with h | ⟨top, ht, _, _, h⟩ <;> rw [h]
  apply flip_heap_of_ne
  rintro rfl
  exact hx (List.mem_of_getLast?_eq_some ht)

@[simp] theorem runCheckWin_piles (g : Game) : (runCheckWin g).piles = g.piles := by
  unfold runCheckWin; split <;> rfl
@[simp] theorem runCheckWin_heap (g : Game) : (runCheckWin g).heap = g.heap := by
  unfold runCheckWin; split <;> rfl
@[simp] theorem runCheckWin_history (g : Game) : (runCheckWin g).history = g.history := by
  unfold runCheckWin; split <;> rfl
@[simp] theorem runCheckWin_moveCount (g : Game) : (runCheckWin g).moveCount = g.moveCount := by
  unfold runCheckWin; split <;> rfl

theorem canMove_true_ne (g : Game) (card : Nat) (src t : PileId)
    (h : canMove g card (some src) t = true) : src ≠ t := by
  rintro rfl
  simp [canMove] at h

/-- The pile state before the reveal step of a move. -/
theorem applyMove_piles (g : Game) (src t : PileId) :
    (applyMove g src t).piles =
      Function.update (Function.update g.piles src ((g.piles src).diff g.selectedCards)) t
        (Function.update g.piles src ((g.piles src).diff g.selectedCards) t ++ g.selectedCards) := by
  simp [applyMove, incrementMove, removeCards_eq, addCards_eq, saveState]

theorem applyMove_history (g : Game) (src t : PileId) :
    (applyMove g src t).history = g.view :: g.history := by
  simp [applyMove, incrementMove, removeCards_eq, addCards_eq, saveState]

theorem applyMove_moveCount (g : Game) (src t : PileId) :
    (applyMove g src t).moveCount = g.moveCount + 1 := by
  simp [applyMove, incrementMove, removeCards_eq, addCards_eq, saveState]

theorem applyMove_heap_key (g : Game) (src t : PileId) (x : Nat) :
    ((applyMove g src t).heap x).key = (g.heap x).key := by
  simp only [applyMove, incrementMove, removeCards_eq, addCards_eq, saveState, runCheckWin_heap]
  rw [reveal_heap_key]
  simp only [setFaceUp]
  split <;> rfl

theorem applyMove_heap_of_not_mem (g : Game) (src t : PileId) (hne : src ≠ t) (x : Nat)
    (hx : x ∉ (g.piles src).diff g.selectedCards) :
    (applyMove g src t).heap x = setFaceUp g.heap g.selectedCards true x := by
  simp only [applyMove, incrementMove, removeCards_eq, addCards_eq, saveState, runCheckWin_heap]
  rw [reveal_heap_of_not_mem]
  simpa [Function.update_noteq hne] using hx


theorem canMove_same (g : Game) (card : Nat) (p : PileId) :
    canMove g card (some p) p = false := by
  simp [canMove]

theorem canMove_waste (g : Game) (card : Nat) (sourcePile : Option PileId) :
    canMove g card sourcePile PileId.waste = false := by
  unfold canMove
  split <;> simp [PileId.type]


theorem restoreCard_spec (p : PileId) (g : Game) (pc : Card) (hf : g.Fresh) :
    (restoreCard p g pc).Fresh ∧
    (restoreCard p g pc).cards p = g.cards p ++ [pc] ∧
    (∀ q, q ≠ p → (restoreCard p g pc).cards q = g.cards q) ∧
    (g.WF → (restoreCard p g pc).WF) ∧
    (restoreCard p g pc).history = g.history ∧
    (restoreCard p g pc).moveCount = g.moveCount := by
  have hpiles : (restoreCard p g pc).piles = Function.update g.piles p (g.piles p ++ [g.nextId]) :=
    rfl
  have hheap : (restoreCard p g pc).heap = Function.update g.heap g.nextId pc := by
    simp [restoreCard, addCard]
  have hold : ∀ q, ∀ c ∈ g.piles q, (restoreCard p g pc).heap c = g.heap c := by
    intro q c hc
    rw [hheap, Function.update_noteq (Nat.ne_of_lt (hf q c hc))]
  refine ⟨?_, ?_, ?_, ?_, rfl, rfl⟩
  · intro q c hc
    show c < g.nextId + 1
    rw [hpiles] at hc
    by_cases hq : q = p
    · subst hq
      rw [Function.update_same, List.mem_append] at hc
      rcases hc with h | h
      · exact Nat.lt_succ_of_lt (hf q c h)
      · simp at h; omega
    · rw [Function.update_noteq hq] at hc
      exact Nat.lt_succ_of_lt (hf q c hc)
  · show ((restoreCard p g pc).piles p).map (restoreCard p g pc).heap = _
    rw [hpiles, Function.update_same, List.map_append]
    congr 1
    · exact List.map_congr_left (fun c hc => hold p c hc)
    · simp [hheap]
  · intro q hq
    show ((restoreCard p g pc).piles q).map (restoreCard p g pc).heap = _
    rw [hpiles, Function.update_noteq hq]
    exact List.map_congr_left (fun c hc => hold q c hc)
  · intro hwf
    rw [wf_iff] at hwf ⊢
    obtain ⟨hnd, hdj⟩ := hwf
    have hnew : ∀ q, g.nextId ∉ g.piles q := fun q h => Nat.lt_irrefl _ (hf q _ h)
    rw [hpiles]
    constructor
    · intro q
      by_cases hq : q = p
      · subst hq
        rw [Function.update_same]
        exact List.Nodup.append (hnd q) (List.nodup_singleton _)
          (by simpa using hnew q)
      · rw [Function.update_noteq hq]; exact hnd q
    · intro q r hqr
      by_cases hq : q = p
      · subst hq
        rw [Function.update_same, Function.update_noteq (Ne.symm hqr)]
        rw [List.disjoint_append_left]
        exact ⟨hdj q r hqr, by simpa using hnew r⟩
      · rw [Function.update_noteq hq]
        by_cases hr : r = p
        · subst hr
          rw [Function.update_same, List.disjoint_append_right]
          exact ⟨hdj q r hqr, by simpa using hnew q⟩
        · rw [Function.update_noteq hr]; exact hdj q r hqr

theorem restoreCards_spec (p : PileId) (l : List Card) (g : Game) (hf : g.Fresh) :
    (l.foldl (restoreCard p) g).Fresh ∧
    (l.foldl (restoreCard p) g).cards p = g.cards p ++ l ∧
    (∀ q, q ≠ p → (l.foldl (restoreCard p) g).cards q = g.cards q) ∧
    (g.WF → (l.foldl (restoreCard p) g).WF) ∧
    (l.foldl (restoreCard p) g).history = g.history ∧
    (l.foldl (restoreCard p) g).moveCount = g.moveCount := by
  induction l generalizing g with
  | nil => simp [hf]
  | cons pc l ih =>
    obtain ⟨h1, h2, h3, h4, h5, h6⟩ := restoreCard_spec p g pc hf
    obtain ⟨k1, k2, k3, k4, k5, k6⟩ := ih (restoreCard p g pc) h1
    simp only [List.foldl_cons]
    refine ⟨k1, ?_, ?_, fun h => k4 (h4 h), k5.trans h5, k6.trans h6⟩
    · rw [k2, h2]; simp
    · intro q hq; rw [k3 q hq, h3 q hq]

theorem restorePiles_spec (s : Snapshot) (ps : List PileId) (hps : ps.Nodup) (g : Game)
    (hf : g.Fresh) :
    (ps.foldl (restorePile s) g).Fresh ∧
    (∀ p, p ∈ ps → (ps.foldl (restorePile s) g).cards p = g.cards p ++ s p) ∧
    (∀ p, p ∉ ps → (ps.foldl (restorePile s) g).cards p = g.cards p) ∧
    (g.WF → (ps.foldl (restorePile s) g).WF) ∧
    (ps.foldl (restorePile s) g).history = g.history ∧
    (ps.foldl (restorePile s) g).moveCount = g.moveCount := by
  induction ps generalizing g with
  | nil => simp [hf]
  | cons p ps ih =>
    obtain ⟨hp, hps2⟩ := List.nodup_cons.1 hps
    obtain ⟨h1, h2, h3, h4, h5, h6⟩ := restoreCards_spec p (s p) g hf
    obtain ⟨k1, k2, k3, k4, k5, k6⟩ := ih hps2 (restorePile s g p) h1
    simp only [List.foldl_cons]
    refine ⟨k1, ?_, ?_, fun h => k4 (h4 h), k5.trans h5, k6.trans h6⟩
    · intro q hq
      rcases List.mem_cons.1 hq with rfl | hq
      · rw [k3 q hp]; exact h2
      · have : q ≠ p := fun h => hp (h ▸ hq)
        rw [k2 q hq]; congr 1; exact h3 q this
    · intro q hq
      have hqp : q ≠ p := fun h => hq (h ▸ List.mem_cons_self _ _)
      have hq2 : q ∉ ps := fun h => hq (List.mem_cons_of_mem _ h)
      rw [k3 q hq2]; exact h3 q hqp

theorem restoreState_spec (g : Game) (s : Snapshot) :
    (restoreState g s).view = s ∧ (restoreState g s).WF ∧
    (restoreState g s).history = g.history ∧
    (restoreState g s).moveCount = g.moveCount := by
  have hf : Game.Fresh { g with piles := fun _ => [] } := by
    intro p c hc
    simp at hc
  have hwf : Game.WF { g with piles := fun _ => [] } := by
    rw [wf_iff]
    simp
  obtain ⟨_, h2, _, h4, h5, h6⟩ := restorePiles_spec s allPiles allPiles_nodup _ hf
  refine ⟨?_, h4 hwf, h5, h6⟩
  funext p
  show (restoreState g s).cards p = s p
  unfold restoreState
  rw [h2 p (mem_allPiles p)]
  simp [Game.cards]


/-! ### Stock and waste -/


theorem erase_append_last {α : Type} [DecidableEq α] (l : List α) (c : α) (h : c ∉ l) :
    (l ++ [c]).erase c = l := by
  rw [List.erase_append_right _ h]
  simp

theorem setFaceUp_append (heap : Nat → Card) (l : List Nat) (c : Nat) (b : Bool) :
    Function.update (setFaceUp heap l b) c { (setFaceUp heap l b c) with faceUp := b } =
      setFaceUp heap (c :: l) b := by
  funext x
  by_cases hx : x = c
  · subst hx
    simp only [Function.update_same, setFaceUp, List.mem_cons, true_or, if_true]
    split <;> rfl
  · rw [Function.update_noteq hx]
    simp [setFaceUp, hx]

theorem setFaceUp_congr (heap : Nat → Card) (l1 l2 : List Nat) (b : Bool)
    (h : ∀ x, x ∈ l1 ↔ x ∈ l2) : setFaceUp heap l1 b = setFaceUp heap l2 b := by
  funext x
  simp [setFaceUp, h x]

/-- One draw from a stock whose top card is `c`. -/
theorem drawFromStock_cons (g : Game) (l : List Nat) (c : Nat)
    (hs : g.piles PileId.stock = l ++ [c]) (hc : c ∉ l) :
    (drawFromStock g).piles =
      Function.update (Function.update g.piles PileId.stock l) PileId.waste
        (g.piles PileId.waste ++ [c]) ∧
    (drawFromStock g).heap = setFaceUp g.heap [c] true ∧
    (drawFromStock g).moveCount = g.moveCount + 1 ∧
    (drawFromStock g).history = g.view :: g.history := by
  have hlen : (g.piles PileId.stock).length ≠ 0 := by rw [hs]; simp
  have htop : getTopCard (saveState g) PileId.stock = some c := by
    simp [getTopCard, saveState, hs]
  unfold drawFromStock
  simp only [show (saveState g).piles = g.piles from rfl, hlen, if_false, htop]
  refine ⟨?_, ?_, rfl, rfl⟩
  · simp [incrementMove, addCard, flip, removeCard, saveState, hs, erase_append_last l c hc,
      Function.update_noteq (show PileId.waste ≠ PileId.stock by decide)]
  · funext x
    simp only [incrementMove, addCard, flip, removeCard, saveState, Function.update_same,
      Function.update_idem, setFaceUp, List.mem_singleton]
    by_cases hx : x = c
    · subst hx; simp
    · simp [hx, Function.update_noteq hx]


theorem setFaceUp_setFaceUp (heap : Nat → Card) (l1 l2 : List Nat) (b : Bool) :
    setFaceUp (setFaceUp heap l1 b) l2 b = setFaceUp heap (l2 ++ l1) b := by
  funext x
  simp only [setFaceUp, List.mem_append]
  by_cases h1 : x ∈ l1 <;> by_cases h2 : x ∈ l2 <;> simp [h1, h2]

/-- Drawing as many cards as the list `r` on top of the stock holds. -/
theorem drawFromStock_iterate (r : List Nat) :
    ∀ (g : Game) (l : List Nat), g.piles PileId.stock = l ++ r → (l ++ r).Nodup →
      (drawFromStock^[r.length] g).piles PileId.stock = l ∧
      (drawFromStock^[r.length] g).piles PileId.waste = g.piles PileId.waste ++ r.reverse ∧
      (∀ p, p ≠ PileId.stock → p ≠ PileId.waste →
        (drawFromStock^[r.length] g).piles p = g.piles p) ∧
      (drawFromStock^[r.length] g).heap = setFaceUp g.heap r true ∧
      (drawFromStock^[r.length] g).moveCount = g.moveCount + r.length := by
  induction r using List.reverseRecOn with
  | nil =>
    intro g l hs _
    simp at hs
    simp [hs]
  | append_singleton r c ih =>
    intro g l hs hnd
    rw [← List.append_assoc] at hs hnd
    have hc : c ∉ l ++ r := by
      intro h
      exact (List.nodup_append.1 hnd).2.2 h (List.mem_singleton_self c)
    obtain ⟨h1, h2, h3, h4⟩ := drawFromStock_cons g (l ++ r) c hs hc
    have hnd2 : (l ++ r).Nodup := (List.nodup_append.1 hnd).1
    have hs1 : (drawFromStock g).piles PileId.stock = l ++ r := by
      rw [h1]; simp [Function.update_noteq (show PileId.stock ≠ PileId.waste by decide)]
    obtain ⟨k1, k2, k3, k4, k5⟩ := ih (drawFromStock g) l hs1 hnd2
    rw [List.length_append, List.length_singleton, Function.iterate_succ_apply]
    refine ⟨k1, ?_, ?_, ?_, ?_⟩
    · rw [k2, h1]; simp
    · intro p hp1 hp2
      rw [k3 p hp1 hp2, h1]
      simp [Function.update_noteq hp1, Function.update_noteq hp2]
    · rw [k4, h2, setFaceUp_setFaceUp]
    · rw [k5, h3]; push_cast; ring

/-- The recycle loop moves the whole waste onto the stock, top card first. -/
theorem recycleLoop_spec (w : List Nat) :
    ∀ (g : Game) (fuel : Nat), g.piles PileId.waste = w → w.Nodup → w.length ≤ fuel →
      (recycleLoop fuel g).piles PileId.waste = [] ∧
      (recycleLoop fuel g).piles PileId.stock = g.piles PileId.stock ++ w.reverse ∧
      (∀ p, p ≠ PileId.stock → p ≠ PileId.waste → (recycleLoop fuel g).piles p = g.piles p) ∧
      (recycleLoop fuel g).heap = setFaceUp g.heap w false ∧
      (recycleLoop fuel g).moveCount = g.moveCount ∧
      (recycleLoop fuel g).history = g.history := by
  induction w using List.reverseRecOn with
  | nil =>
    intro g fuel hw _ _
    cases fuel with
    | zero => simp [recycleLoop, hw]
    | succ n => simp [recycleLoop, hw]
  | append_singleton w c ih =>
    intro g fuel hw hnd hlen
    cases fuel with
    | zero => simp at hlen
    | succ n =>
      have hc : c ∉ w := fun h => (List.nodup_append.1 hnd).2.2 h (List.mem_singleton_self c)
      have hlen2 : w.length ≤ n := by simp at hlen; omega
      have htop : getTopCard g PileId.waste = some c := by simp [getTopCard, hw]
      have hpos : (g.piles PileId.waste).length > 0 := by rw [hw]; simp
      have hstep : recycleLoop (n + 1) g = recycleLoop n
          (addCard (flip (removeCard g PileId.waste c) c) PileId.stock c false) := by
        rw [recycleLoop]
        simp only [hpos, if_true, htop]
      have hne : PileId.waste ≠ PileId.stock := by decide
      have hw1 : (addCard (flip (removeCard g PileId.waste c) c) PileId.stock c false).piles
          PileId.waste = w := by
        simp [addCard, flip, removeCard, Function.update_noteq hne, hw,
          erase_append_last w c hc]
      obtain ⟨k1, k2, k3, k4, k5, k6⟩ := ih _ n hw1 (List.nodup_append.1 hnd).1 hlen2
      rw [hstep]
      refine ⟨k1, ?_, ?_, ?_, ?_, ?_⟩
      · rw [k2]
        simp [addCard, flip, removeCard, Function.update_noteq hne.symm]
      · intro p hp1 hp2
        rw [k3 p hp1 hp2]
        simp [addCard, flip, removeCard, Function.update_noteq hp1, Function.update_noteq hp2]
      · rw [k4]
        have : (addCard (flip (removeCard g PileId.waste c) c) PileId.stock c false).heap =
            setFaceUp g.heap [c] false := by
          funext x
          simp only [addCard, flip, removeCard, Function.update_same, Function.update_idem,
            setFaceUp, List.mem_singleton]
          by_cases hx : x = c
          · subst hx; simp
          · simp [hx, Function.update_noteq hx]
        rw [this, setFaceUp_setFaceUp]
      · rw [k5]; rfl
      · rw [k6]; rfl

/-- A draw from an empty stock is the recycle. -/
theorem drawFromStock_recycle (g : Game) (hs : g.piles PileId.stock = [])
    (hnd : (g.piles PileId.waste).Nodup) :
    (drawFromStock g).piles PileId.waste = [] ∧
    (drawFromStock g).piles PileId.stock = (g.piles PileId.waste).reverse ∧
    (∀ p, p ≠ PileId.stock → p ≠ PileId.waste → (drawFromStock g).piles p = g.piles p) ∧
    (drawFromStock g).heap = setFaceUp g.heap (g.piles PileId.waste) false ∧
    (drawFromStock g).moveCount = g.moveCount ∧
    (drawFromStock g).history = g.view :: g.history := by
  have h : drawFromStock g = recycleLoop (g.piles PileId.waste).length (saveState g) := by
    unfold drawFromStock
    simp [show (saveState g).piles = g.piles from rfl, hs]
  obtain ⟨k1, k2, k3, k4, k5, k6⟩ :=
    recycleLoop_spec (g.piles PileId.waste) (saveState g) (g.piles PileId.waste).length rfl hnd
      (le_refl _)
  rw [h]
  refine ⟨k1, ?_, k3, k4, k5, k6⟩
  rw [k2]
  simp [saveState, hs]



/-! ### Dealing -/

theorem applyOps_deck (ops : List (PileId × Nat × Bool)) (g : Game) :
    (applyOps g ops).deck = g.deck := by
  induction ops generalizing g with
  | nil => rfl
  | cons o ops ih =>
    show (applyOps (addCard g o.1 o.2.1 o.2.2) ops).deck = g.deck
    rw [ih]; rfl

theorem applyOps_fields (ops : List (PileId × Nat × Bool)) (g : Game) :
    (applyOps g ops).history = g.history ∧ (applyOps g ops).moveCount = g.moveCount ∧
    (applyOps g ops).nextId = g.nextId := by
  induction ops generalizing g with
  | nil => exact ⟨rfl, rfl, rfl⟩
  | cons o ops ih =>
    show (applyOps (addCard g o.1 o.2.1 o.2.2) ops).history = g.history ∧ _
    obtain ⟨h1, h2, h3⟩ := ih (addCard g o.1 o.2.1 o.2.2)
    exact ⟨h1, h2, h3⟩

theorem applyOps_piles (ops : List (PileId × Nat × Bool)) (g : Game) (p : PileId) :
    (applyOps g ops).piles p =
      g.piles p ++ (ops.filter (fun o => decide (o.1 = p))).map (fun o => o.2.1) := by
  induction ops generalizing g with
  | nil => simp [applyOps]
  | cons o ops ih =>
    show (applyOps (addCard g o.1 o.2.1 o.2.2) ops).piles p = _
    rw [ih]
    by_cases h : o.1 = p
    · subst h
      simp [addCard, List.filter_cons]
    · simp [addCard, List.filter_cons, h, Function.update_noteq (Ne.symm h)]

theorem applyOps_heap_key (ops : List (PileId × Nat × Bool)) (g : Game) (c : Nat) :
    ((applyOps g ops).heap c).key = (g.heap c).key := by
  induction ops generalizing g with
  | nil => rfl
  | cons o ops ih =>
    show ((applyOps (addCard g o.1 o.2.1 o.2.2) ops).heap c).key = _
    rw [ih]
    by_cases h : c = o.2.1
    · subst h; simp [addCard, Card.key]
    · simp [addCard, Function.update_noteq h]

theorem applyOps_heap_of_not_mem (ops : List (PileId × Nat × Bool)) (g : Game) (c : Nat)
    (hc : c ∉ ops.map (fun o => o.2.1)) : (applyOps g ops).heap c = g.heap c := by
  induction ops generalizing g with
  | nil => rfl
  | cons o ops ih =>
    show (applyOps (addCard g o.1 o.2.1 o.2.2) ops).heap c = _
    simp only [List.map_cons, List.mem_cons, not_or] at hc
    rw [ih _ hc.2]
    simp [addCard, Function.update_noteq hc.1]

theorem applyOps_heap_of_mem (ops : List (PileId × Nat × Bool)) (g : Game)
    (hnd : (ops.map (fun o => o.2.1)).Nodup) (o : PileId × Nat × Bool) (ho : o ∈ ops) :
    (applyOps g ops).heap o.2.1 = { (g.heap o.2.1) with faceUp := o.2.2 } := by
  induction ops generalizing g with
  | nil => simp at ho
  | cons o1 ops ih =>
    show (applyOps (addCard g o1.1 o1.2.1 o1.2.2) ops).heap o.2.1 = _
    simp only [List.map_cons, List.nodup_cons] at hnd
    rcases List.mem_cons.1 ho with rfl | h
    · rw [applyOps_heap_of_not_mem _ _ _ hnd.1]
      simp [addCard]
    · rw [ih _ hnd.2 h]
      have hne : o.2.1 ≠ o1.2.1 := by
        intro e
        apply hnd.1
        rw [← e]
        exact List.mem_map_of_mem (fun o => o.2.1) h
      simp [addCard, Function.update_noteq hne]

/-- The cards of a pile after a sequence of `addCard` calls on distinct cards
that are not yet in the pile. -/
theorem applyOps_cards (ops : List (PileId × Nat × Bool)) (g : Game) (p : PileId)
    (hnd : (ops.map (fun o => o.2.1)).Nodup)
    (hp : ∀ c ∈ g.piles p, c ∉ ops.map (fun o => o.2.1)) :
    (applyOps g ops).cards p =
      g.cards p ++ (ops.filter (fun o => decide (o.1 = p))).map
        (fun o => { (g.heap o.2.1) with faceUp := o.2.2 }) := by
  show ((applyOps g ops).piles p).map (applyOps g ops).heap = _
  rw [applyOps_piles, List.map_append, List.map_map]
  congr 1
  · exact List.map_congr_left (fun c hc => applyOps_heap_of_not_mem ops g c (hp c hc))
  · apply List.map_congr_left
    intro o ho
    exact applyOps_heap_of_mem ops g hnd o (List.mem_of_mem_filter ho)

theorem dealFold (sl : List (Fin 7 × Nat)) (g : Game) (n : Nat)
    (h : n + sl.length ≤ g.deck.length) :
    sl.foldlM dealStep (g, n) =
      some (applyOps g ((sl.zip (g.deck.drop n)).map
        (fun x => (PileId.tableau x.1.1, x.2, decide (x.1.2 = x.1.1.val)))), n + sl.length) := by
  induction sl generalizing g n with
  | nil => simp [applyOps]
  | cons ij sl ih =>
    have hn : n < g.deck.length := by simp at h; omega
    have hd : g.deck.drop n = g.deck[n] :: g.deck.drop (n + 1) := by
      rw [List.drop_eq_getElem_cons hn]
    rw [List.foldlM_cons]
    have hstep : dealStep (g, n) ij =
        some (addCard g (PileId.tableau ij.1) g.deck[n] (decide (ij.2 = ij.1.val)), n + 1) := by
      simp [dealStep, List.getElem?_eq_getElem hn]
    rw [hstep]
    simp only [Option.some_bind, Option.bind_eq_bind]
    rw [ih]
    · rw [hd]
      refine congrArg some (Prod.ext ?_ ?_)
      · rfl
      · simp only [List.length_cons]
        omega
    · simp only [List.length_cons] at h
      show n + 1 + sl.length ≤ g.deck.length
      omega


theorem dealSlots_length : dealSlots.length = 28 := by decide

theorem dealCards_eq (g : Game) (h : 28 ≤ g.deck.length) :
    dealCards g = some (applyOps { g with piles := fun _ => [] } (dealOps g.deck)) := by
  have hf := dealFold dealSlots { g with piles := fun _ => [] } 0
    (by rw [dealSlots_length]; simpa using h)
  unfold dealCards
  rw [hf]
  simp only [applyOps_deck, dealSlots_length, List.drop_zero, Nat.zero_add]
  rw [← List.foldl_map (f := fun c => (PileId.stock, c, false))
    (g := fun (g : Game) (o : PileId × Nat × Bool) => addCard g o.1 o.2.1 o.2.2)]
  unfold dealOps applyOps
  rw [List.foldl_append]

theorem zip_filter_block {α β : Type} (A B C : List α) (d : List β) (q : α → Bool)
    (hA : ∀ x ∈ A, q x = false) (hB : ∀ x ∈ B, q x = true) (hC : ∀ x ∈ C, q x = false)
    (hd : (A ++ B ++ C).length ≤ d.length) :
    ((A ++ B ++ C).zip d).filter (fun x => q x.1) =
      B.zip ((d.drop A.length).take B.length) := by
  have hd' : A.length + B.length + C.length ≤ d.length := by
    simp only [List.length_append] at hd
    omega
  have e1 : d = d.take A.length ++ ((d.drop A.length).take B.length ++
      (d.drop A.length).drop B.length) := by
    rw [List.take_append_drop, List.take_append_drop]
  have l1 : (d.take A.length).length = A.length := by
    rw [List.length_take]; omega
  have l2 : ((d.drop A.length).take B.length).length = B.length := by
    rw [List.length_take, List.length_drop]; omega
  conv_lhs => rw [e1]
  rw [List.append_assoc, List.zip_append l1.symm, List.zip_append l2.symm]
  simp only [List.filter_append]
  have f1 : (A.zip (d.take A.length)).filter (fun x => q x.1) = [] := by
    rw [List.filter_eq_nil_iff]
    intro x hx
    have := hA x.1 (List.of_mem_zip (a := x.1) (b := x.2) hx).1
    simp [this]
  have f2 : (B.zip ((d.drop A.length).take B.length)).filter (fun x => q x.1) =
      B.zip ((d.drop A.length).take B.length) := by
    rw [List.filter_eq_self]
    intro x hx
    exact hB x.1 (List.of_mem_zip (a := x.1) (b := x.2) hx).1
  have f3 : (C.zip ((d.drop A.length).drop B.length)).filter (fun x => q x.1) = [] := by
    rw [List.filter_eq_nil_iff]
    intro x hx
    have := hC x.1 (List.of_mem_zip (a := x.1) (b := x.2) hx).1
    simp [this]
  rw [f1, f2, f3]
  simp

theorem dealSlots_block (i : Fin 7) :
    dealSlots = dealSlots.take (i.val * (i.val + 1) / 2) ++
        (List.range (i.val + 1)).map (fun j => (i, j)) ++
        dealSlots.drop (i.val * (i.val + 1) / 2 + (i.val + 1)) ∧
      (∀ x ∈ dealSlots.take (i.val * (i.val + 1) / 2), decide (x.1 = i) = false) ∧
      (∀ x ∈ dealSlots.drop (i.val * (i.val + 1) / 2 + (i.val + 1)), decide (x.1 = i) = false) ∧
      (dealSlots.take (i.val * (i.val + 1) / 2)).length = i.val * (i.val + 1) / 2 ∧
      ((List.range (i.val + 1)).map (fun j => (i, j))).map
        (fun x : Fin 7 × Nat => decide (x.2 = x.1.val)) = List.replicate i.val false ++ [true] := by
  revert i
  decide


/-- The `addCard` calls of the deal that go to tableau pile `i`. -/
theorem dealOps_filter_tableau (deck : List Nat) (h : 28 ≤ deck.length) (i : Fin 7) :
    (dealOps deck).filter (fun o => decide (o.1 = PileId.tableau i)) =
      (((List.range (i.val + 1)).map (fun j => (i, j))).zip
        ((deck.drop (i.val * (i.val + 1) / 2)).take (i.val + 1))).map
          (fun x => (PileId.tableau x.1.1, x.2, decide (x.1.2 = x.1.1.val))) := by
  obtain ⟨hb, hA, hC, hlen, _⟩ := dealSlots_block i
  unfold dealOps
  rw [List.filter_append, List.filter_map, List.filter_map]
  have e2 : List.filter ((fun o : PileId × Nat × Bool => decide (o.1 = PileId.tableau i)) ∘
      fun c => (PileId.stock, c, false)) (deck.drop 28) = [] := by
    rw [List.filter_eq_nil_iff]
    intro x _
    simp
  have e1 : ((fun o : PileId × Nat × Bool => decide (o.1 = PileId.tableau i)) ∘
      fun x : (Fin 7 × Nat) × Nat => (PileId.tableau x.1.1, x.2, decide (x.1.2 = x.1.1.val))) =
      fun x => (fun ij : Fin 7 × Nat => decide (ij.1 = i)) x.1 := by
    funext x
    simp
  rw [e2, e1, List.map_nil, List.append_nil]
  have hz := zip_filter_block (dealSlots.take (i.val * (i.val + 1) / 2))
    ((List.range (i.val + 1)).map (fun j => (i, j)))
    (dealSlots.drop (i.val * (i.val + 1) / 2 + (i.val + 1))) deck
    (fun ij : Fin 7 × Nat => decide (ij.1 = i)) hA (by simp) hC
    (by rw [← hb, dealSlots_length]; exact h)
  rw [← hb, hlen] at hz
  rw [hz]
  simp

theorem dealOps_filter_stock (deck : List Nat) :
    (dealOps deck).filter (fun o => decide (o.1 = PileId.stock)) =
      (deck.drop 28).map (fun c => (PileId.stock, c, false)) := by
  unfold dealOps
  rw [List.filter_append, List.filter_map, List.filter_map]
  have e1 : List.filter ((fun o : PileId × Nat × Bool => decide (o.1 = PileId.stock)) ∘
      fun x : (Fin 7 × Nat) × Nat => (PileId.tableau x.1.1, x.2, decide (x.1.2 = x.1.1.val)))
      (dealSlots.zip deck) = [] := by
    rw [List.filter_eq_nil_iff]
    intro x _
    simp
  have e2 : List.filter ((fun o : PileId × Nat × Bool => decide (o.1 = PileId.stock)) ∘
      fun c => (PileId.stock, c, false)) (deck.drop 28) = deck.drop 28 := by
    rw [List.filter_eq_self]
    intro x _
    simp
  rw [e1, e2]
  simp

theorem dealOps_filter_other (deck : List Nat) (p : PileId)
    (hp : p.type ≠ PileType.tableau) (hs : p ≠ PileId.stock) :
    (dealOps deck).filter (fun o => decide (o.1 = p)) = [] := by
  unfold dealOps
  rw [List.filter_eq_nil_iff]
  intro o ho
  rcases List.mem_append.1 ho with h | h
  · obtain ⟨x, _, rfl⟩ := List.mem_map.1 h
    simp only [decide_eq_true_eq]
    rintro rfl
    exact hp rfl
  · obtain ⟨x, _, rfl⟩ := List.mem_map.1 h
    simp only [decide_eq_true_eq]
    exact fun e => hs e.symm

theorem map_snd_zip_take {α β : Type} (l1 : List α) (l2 : List β) (h : l1.length ≤ l2.length) :
    (l1.zip l2).map Prod.snd = l2.take l1.length := by
  induction l1 generalizing l2 with
  | nil => simp
  | cons a l1 ih =>
    cases l2 with
    | nil => simp at h
    | cons b l2 =>
      simp only [List.length_cons, Nat.add_le_add_iff_right] at h
      simp [ih l2 h]

theorem dealOps_cards (deck : List Nat) (h : 28 ≤ deck.length) :
    (dealOps deck).map (fun o => o.2.1) = deck := by
  unfold dealOps
  rw [List.map_append, List.map_map, List.map_map]
  have e1 : (dealSlots.zip deck).map ((fun o : PileId × Nat × Bool => o.2.1) ∘
      fun x : (Fin 7 × Nat) × Nat => (PileId.tableau x.1.1, x.2, decide (x.1.2 = x.1.1.val)))
      = deck.take 28 := by
    have := map_snd_zip_take dealSlots deck (by rw [dealSlots_length]; exact h)
    rw [dealSlots_length] at this
    exact this
  have e2 : ((fun o : PileId × Nat × Bool => o.2.1) ∘ fun c => (PileId.stock, c, false)) = id :=
    rfl
  rw [e1, e2, List.map_id, List.take_append_drop]


theorem slot_bound (i : Fin 7) : i.val * (i.val + 1) / 2 + (i.val + 1) ≤ 28 := by
  revert i
  decide


theorem recycleLoop_history (fuel : Nat) (g : Game) :
    (recycleLoop fuel g).history = g.history ∧ (recycleLoop fuel g).moveCount = g.moveCount := by
  induction fuel generalizing g with
  | zero => exact ⟨rfl, rfl⟩
  | succ n ih =>
    rw [recycleLoop]
    split
    · cases h : getTopCard g PileId.waste with
      | none => exact ⟨rfl, rfl⟩
      | some card =>
        simp only []
        obtain ⟨h1, h2⟩ := ih (addCard (flip (removeCard g PileId.waste card) card) PileId.stock
          card false)
        exact ⟨h1, h2⟩
    · exact ⟨rfl, rfl⟩

theorem drawFromStock_history (g : Game) :
    (drawFromStock g).history = g.view :: g.history := by
  unfold drawFromStock
  simp only []
  split
  · exact (recycleLoop_history _ _).1
  · cases h : getTopCard (saveState g) PileId.stock with
    | none => rfl
    | some card => rfl

theorem undo_cons (g : Game) (s : Snapshot) (rest : List Snapshot) (h : g.history = s :: rest) :
    (undo g).view = s ∧ (undo g).history = rest ∧ (undo g).moveCount = g.moveCount - 1 ∧
    (undo g).WF := by
  unfold undo
  rw [h]
  simp only []
  obtain ⟨h1, h2, h3, h4⟩ := restoreState_spec { g with history := rest } s
  exact ⟨h1, h3, by rw [h4], h2⟩

theorem setFaceUp_of_not_mem (heap : Nat → Card) (l : List Nat) (b : Bool) (x : Nat)
    (h : x ∉ l) : setFaceUp heap l b x = heap x := by
  simp [setFaceUp, h]

theorem setFaceUp_of_mem (heap : Nat → Card) (l : List Nat) (b : Bool) (x : Nat)
    (h : x ∈ l) : setFaceUp heap l b x = { (heap x) with faceUp := b } := by
  simp [setFaceUp, h]

theorem setFaceUp_key (heap : Nat → Card) (l : List Nat) (b : Bool) (x : Nat) :
    (setFaceUp heap l b x).key = (heap x).key := by
  unfold setFaceUp
  split <;> rfl

theorem reveal_not_tableau (g : Game) (p : PileId) (h : p.type ≠ PileType.tableau) :
    reveal g p = g := by
  unfold reveal
  rw [if_neg]
  exact fun hh => h hh.1

theorem reveal_top (g : Game) (p : PileId) (top : Nat) (h : p.type = PileType.tableau)
    (ht : getTopCard g p = some top) :
    (reveal g p).heap top = { (g.heap top) with faceUp := true } := by
  have hpos : (g.piles p).length > 0 := by
    have := List.mem_of_getLast?_eq_some ht
    exact List.length_pos_of_mem this
  unfold reveal
  rw [if_pos ⟨h, hpos⟩, ht]
  simp only []
  by_cases hf : (g.heap top).faceUp = true
  · simp only [hf, Bool.not_true, Bool.false_eq_true, if_false]
    rw [← hf]
  · have hf2 : (g.heap top).faceUp = false := by simpa using hf
    simp [hf2, flip]

theorem reveal_heap_of_ne_top (g : Game) (p : PileId) (top x : Nat)
    (ht : getTopCard g p = some top) (hx : x ≠ top) : (reveal g p).heap x = g.heap x := by
  rcases reveal_cases g p with h | ⟨t, ht2, _, _, h⟩
  · rw [h]
  · rw [h]
    rw [ht] at ht2
    cases ht2
    exact flip_heap_of_ne g top x hx

theorem flatMap_perm_two (f f' : PileId → List Nat) (p q : PileId) (hpq : p ≠ q)
    (hother : ∀ r, r ≠ p → r ≠ q → f' r = f r) (h : (f' p ++ f' q).Perm (f p ++ f q)) :
    (allPiles.flatMap f').Perm (allPiles.flatMap f) := by
  have h1 : allPiles.Perm (p :: q :: (allPiles.erase p).erase q) := by
    refine (List.perm_cons_erase (mem_allPiles p)).trans (List.Perm.cons p ?_)
    exact List.perm_cons_erase ((List.mem_erase_of_ne (Ne.symm hpq)).2 (mem_allPiles q))
  have hnd : (p :: q :: (allPiles.erase p).erase q).Nodup := h1.nodup_iff.1 allPiles_nodup
  have hp : p ∉ (allPiles.erase p).erase q := fun hm =>
    (List.nodup_cons.1 hnd).1 (List.mem_cons_of_mem _ hm)
  have hq : q ∉ (allPiles.erase p).erase q := fun hm =>
    (List.nodup_cons.1 (List.nodup_cons.1 hnd).2).1 hm
  have hR : ((allPiles.erase p).erase q).flatMap f' = ((allPiles.erase p).erase q).flatMap f := by
    apply List.flatMap_congr
    intro r hr
    exact hother r (fun e => hp (e ▸ hr)) (fun e => hq (e ▸ hr))
  refine (h1.flatMap_right f').trans (List.Perm.trans ?_ (h1.flatMap_right f).symm)
  simp only [List.flatMap_cons, hR, ← List.append_assoc]
  exact h.append_right _

theorem flatMap_perm_one (f f' : PileId → List Nat) (p : PileId)
    (hother : ∀ r, r ≠ p → f' r = f r) (extra : List Nat) (h : (f' p).Perm (f p ++ extra)) :
    (allPiles.flatMap f').Perm (allPiles.flatMap f ++ extra) := by
  have h1 : allPiles.Perm (p :: allPiles.erase p) := List.perm_cons_erase (mem_allPiles p)
  have hnd : (p :: allPiles.erase p).Nodup := h1.nodup_iff.1 allPiles_nodup
  have hp : p ∉ allPiles.erase p := (List.nodup_cons.1 hnd).1
  have hR : (allPiles.erase p).flatMap f' = (allPiles.erase p).flatMap f := by
    apply List.flatMap_congr
    intro r hr
    exact hother r (fun e => hp (e ▸ hr))
  refine (h1.flatMap_right f').trans
    (List.Perm.trans ?_ ((h1.flatMap_right f).symm.append_right extra))
  simp only [List.flatMap_cons, hR]
  refine (h.append_right _).trans ?_
  rw [List.append_assoc, List.append_assoc]
  exact List.Perm.append_left _ List.perm_append_comm

theorem snapCards_view (g : Game) : snapCards g.view = g.allRefs.map g.heap := by
  unfold snapCards Game.allRefs Game.view Game.cards
  rw [List.map_flatMap]

theorem conserved_iff (g : Game) :
    Conserved g.view ↔ (g.allRefs.map (fun c => (g.heap c).key)).Perm fullDeck := by
  unfold Conserved
  rw [snapCards_view, List.map_map]
  rfl

/-- Conservation is kept when the references are permuted and no card
changes its suit or rank. -/
theorem conserved_of_perm (g g1 : Game) (hp : g1.allRefs.Perm g.allRefs)
    (hk : ∀ c, (g1.heap c).key = (g.heap c).key) (h : Conserved g.view) :
    Conserved g1.view := by
  rw [conserved_iff] at h ⊢
  have e : g1.allRefs.map (fun c => (g1.heap c).key) =
      g1.allRefs.map (fun c => (g.heap c).key) :=
    List.map_congr_left (fun c _ => hk c)
  rw [e]
  exact (hp.map _).trans h

theorem wf_of_perm (g g1 : Game) (hp : g1.allRefs.Perm g.allRefs) (h : g.WF) : g1.WF :=
  hp.nodup_iff.2 h

theorem tableauOrdered_nil : TableauOrdered [] :=
  ⟨[], [], rfl, by simp, by simp, List.chain'_nil⟩

theorem tableauOrdered_take (l : List Card) (k : Nat) (h : TableauOrdered l) :
    TableauOrdered (l.take k) := by
  obtain ⟨down, up, rfl, hd, hu, hc⟩ := h
  refine ⟨down.take k, up.take (k - down.length), List.take_append_eq_append_take, ?_, ?_,
    hc.take _⟩
  · exact fun c hc => hd c (List.mem_of_mem_take hc)
  · exact fun c hc => hu c (List.mem_of_mem_take hc)

theorem tableauOrdered_reveal (l : List Card) (c : Card) (h : TableauOrdered (l ++ [c])) :
    TableauOrdered (l ++ [{ c with faceUp := true }]) := by
  obtain ⟨down, up, e, hd, hu, hc⟩ := h
  rcases List.eq_nil_or_concat up with rfl | ⟨up0, x, hx0⟩
  · rw [List.append_nil] at e
    refine ⟨l, [{ c with faceUp := true }], rfl, ?_, by simp, List.chain'_singleton _⟩
    intro y hy
    exact hd y (by rw [← e]; exact List.mem_append_left _ hy)
  · rw [List.concat_eq_append] at hx0
    subst hx0
    rw [← List.append_assoc] at e
    obtain ⟨e1, e2⟩ := List.append_inj' e rfl
    have hx : c.faceUp = true := by
      have := hu x (by simp)
      rw [List.singleton_inj.1 e2]; exact this
    have : ({ c with faceUp := true } : Card) = c := by
      cases c
      simp only [Card.mk.injEq, true_and]
      exact hx.symm
    rw [this]
    exact ⟨down, up0 ++ [x], by rw [← List.append_assoc]; exact e, hd, hu, hc⟩

theorem tableauOrdered_append (l run : List Card) (h : TableauOrdered l)
    (hup : ∀ c ∈ run, c.faceUp = true) (hch : run.Chain' Descends)
    (hlink : ∀ top hd, l.getLast? = some top → run.head? = some hd → top.faceUp = true →
      Descends top hd) :
    TableauOrdered (l ++ run) := by
  obtain ⟨down, up, rfl, hd, hu, hc⟩ := h
  rcases List.eq_nil_or_concat up with rfl | ⟨up0, x, hx0⟩
  · rw [List.append_nil]
    exact ⟨down, run, rfl, hd, hup, hch⟩
  · rw [List.concat_eq_append] at hx0
    subst hx0
    refine ⟨down, (up0 ++ [x]) ++ run, by rw [List.append_assoc], hd, ?_, ?_⟩
    · intro c hc
      rcases List.mem_append.1 hc with h | h
      · exact hu c h
      · exact hup c h
    · refine hc.append hch ?_
      intro top htop hd' hhd
      have e1 : (down ++ (up0 ++ [x])).getLast? = some top := by
        rw [← List.append_assoc, List.getLast?_append, List.getLast?_singleton]
        rw [List.getLast?_append, List.getLast?_singleton] at htop
        simpa using htop
      have e2 : top.faceUp = true := hu top (List.mem_of_getLast?_eq_some htop)
      exact hlink top hd' e1 hhd e2

theorem tableauOrdered_suffix (a r : List Card) (c : Card) (h : TableauOrdered (a ++ c :: r))
    (hc : c.faceUp = true) :
    (∀ x ∈ c :: r, x.faceUp = true) ∧ (c :: r).Chain' Descends := by
  obtain ⟨down, up, e, hd, hu, hch⟩ := h
  rcases List.append_eq_append_iff.1 e with ⟨a', e1, e2⟩ | ⟨c', _, e2⟩
  · cases a' with
    | nil =>
      rw [List.nil_append] at e2
      rw [e2]
      exact ⟨hu, hch⟩
    | cons y a'' =>
      rw [List.cons_append] at e2
      have hy : y = c := (List.cons.inj e2).1.symm
      have hcd : c ∈ down := by rw [e1, hy]; simp
      have := hd c hcd
      rw [hc] at this
      exact Bool.noConfusion this
  · have e3 : c :: r = up.drop c'.length := by
      rw [e2, List.drop_left]
    rw [e3]
    exact ⟨fun x hx => hu x (List.mem_of_mem_drop hx), hch.drop _⟩

theorem descends_congr (b1 b2 a1 a2 : Card) (hb : b1.key = b2.key) (ha : a1.key = a2.key)
    (h : Descends b1 a1) : Descends b2 a2 := by
  simp only [Card.key, Prod.mk.injEq] at hb ha
  unfold Descends Card.color at *
  rw [← hb.1, ← hb.2, ← ha.1, ← ha.2]
  exact h

theorem tableauOrdered_of_pattern (l : List Card) (n : Nat)
    (h : l.map Card.faceUp = List.replicate n false ++ [true]) : TableauOrdered l := by
  have hlen : l.length = n + 1 := by
    have := congrArg List.length h
    simpa using this
  refine ⟨l.take n, l.drop n, (List.take_append_drop n l).symm, ?_, ?_, ?_⟩
  · intro c hc
    have h1 : (l.take n).map Card.faceUp = List.replicate n false := by
      rw [List.map_take, h, List.take_left' (by simp)]
    have : c.faceUp ∈ List.replicate n false := by
      rw [← h1]; exact List.mem_map_of_mem _ hc
    exact (List.mem_replicate.1 this).2
  · intro c hc
    have h1 : (l.drop n).map Card.faceUp = [true] := by
      rw [List.map_drop, h, List.drop_left' (by simp)]
    have : c.faceUp ∈ [true] := by
      rw [← h1]; exact List.mem_map_of_mem _ hc
    simpa using this
  · have h2 : (l.drop n).length = 1 := by rw [List.length_drop]; omega
    match hl : l.drop n, h2 with
    | [x], _ => exact List.chain'_singleton x

theorem foundationOrdered_nil : FoundationOrdered [] :=
  ⟨Suit.hearts, 0, by omega, rfl⟩

theorem foundationOrdered_congr (l1 l2 : List Card) (h : l1.map Card.key = l2.map Card.key)
    (h1 : FoundationOrdered l1) : FoundationOrdered l2 := by
  obtain ⟨s, k, hk, e⟩ := h1
  exact ⟨s, k, hk, h ▸ e⟩

theorem foundationOrdered_pop (l : List Card) (c : Card) (h : FoundationOrdered (l ++ [c])) :
    FoundationOrdered l := by
  obtain ⟨s, k, hk, e⟩ := h
  cases k with
  | zero => simp at e
  | succ n =>
    rw [List.range_succ, List.map_append, List.map_append] at e
    have := (List.append_inj' e (by simp)).1
    exact ⟨s, n, by omega, this⟩

theorem foundationOrdered_push_empty (c : Card) (h : c.rank = 1) : FoundationOrdered [c] :=
  ⟨c.suit, 1, by omega, by simp [Card.key, h, List.range_succ]⟩

theorem foundationOrdered_push (l : List Card) (top c : Card) (h : FoundationOrdered l)
    (ht : l.getLast? = some top) (hs : c.suit = top.suit) (hr : c.rank = top.rank + 1)
    (hle : c.rank ≤ 13) : FoundationOrdered (l ++ [c]) := by
  obtain ⟨s, k, hk, e⟩ := h
  cases k with
  | zero =>
    simp at e
    subst e
    simp at ht
  | succ n =>
    have hkey : top.key = (s, (n : Int) + 1) := by
      have h1 : (l.map Card.key).getLast? = some top.key := by
        rw [List.getLast?_map, ht]; rfl
      rw [e, List.range_succ, List.map_append, List.getLast?_append] at h1
      simpa using h1.symm
    simp only [Card.key, Prod.mk.injEq] at hkey
    have hrank : c.rank = ((n + 1 : Nat) : Int) + 1 := by
      rw [hr, hkey.2]; push_cast; ring
    refine ⟨s, n + 2, ?_, ?_⟩
    · have : ((n + 1 : Nat) : Int) + 1 ≤ 13 := hrank ▸ hle
      omega
    · rw [List.map_append, e, List.range_succ (n := n + 1), List.map_append]
      simp [Card.key, hs, hkey.1, hrank]

theorem mem_fullDeck (s : Suit) (r : Int) : (s, r) ∈ fullDeck ↔ 1 ≤ r ∧ r ≤ 13 := by
  constructor
  · intro h
    simp only [fullDeck, suits, ranks, List.mem_flatMap, List.mem_map, List.mem_range,
      Prod.mk.injEq] at h
    obtain ⟨_, _, _, ⟨i, hi, rfl⟩, _, rfl⟩ := h
    omega
  · rintro ⟨h1, h2⟩
    simp only [fullDeck, suits, ranks, List.mem_flatMap, List.mem_map, List.mem_range,
      Prod.mk.injEq]
    refine ⟨s, by cases s <;> simp, r, ⟨(r - 1).toNat, by omega, by omega⟩, rfl, rfl⟩

theorem fullDeck_nodup : fullDeck.Nodup := by decide

theorem fullDeck_length : fullDeck.length = 52 := by decide

theorem swap_length (l : List Nat) (i j : Nat) : (swap l i j).length = l.length := by
  simp [swap]

theorem swap_perm (l : List Nat) (i j : Nat) (hi : i < l.length) (hj : j < l.length) :
    (swap l i j).Perm l := by
  rw [List.perm_iff_count]
  intro b
  unfold swap
  rw [List.getD_eq_getElem l 0 hi, List.getD_eq_getElem l 0 hj]
  have hj2 : j < (l.set i l[j]).length := by simpa using hj
  rw [List.count_set _ _ _ _ hj2, List.count_set _ _ _ _ hi]
  have e : (l.set i l[j])[j] = l[j] := by
    rw [List.getElem_set]
    split <;> rfl
  rw [e]
  have hA : (if (l[i] == b) = true then 1 else 0) ≤ l.count b := by
    split
    · next h =>
      have : l[i] = b := by simpa using h
      rw [← this]
      exact List.count_pos_iff.2 (List.getElem_mem hi)
    · omega
  by_cases h1 : (l[i] == b) = true <;> by_cases h2 : (l[j] == b) = true <;>
    simp only [h1, h2, if_true, if_false] at hA ⊢ <;> omega

theorem shuffleLoop_perm (rnd : Rand) (i : Nat) (deck : List Nat) (h : i < deck.length) :
    (shuffleLoop rnd i deck).Perm deck := by
  induction i generalizing deck with
  | zero => exact List.Perm.refl _
  | succ n ih =>
    rw [shuffleLoop]
    have hj : (rnd (n + 1)).val < deck.length := by
      have := (rnd (n + 1)).isLt
      omega
    refine (ih _ (by rw [swap_length]; omega)).trans (swap_perm deck (n + 1) _ h hj)

theorem shuffleDeck_perm (g : Game) (rnd : Rand) : (shuffleDeck g rnd).deck.Perm g.deck := by
  unfold shuffleDeck
  simp only []
  cases hd : g.deck with
  | nil => simp [shuffleLoop]
  | cons a l =>
    exact shuffleLoop_perm rnd _ _ (by simp)

theorem pushFold_spec (ks : List (Suit × Int)) (g : Game) (hf : g.DeckFresh)
    (hnd : g.deck.Nodup) :
    (ks.foldl (fun g k => pushNewCard k.1 g k.2) g).DeckFresh ∧
    (ks.foldl (fun g k => pushNewCard k.1 g k.2) g).deck.Nodup ∧
    (ks.foldl (fun g k => pushNewCard k.1 g k.2) g).deck.map
        (fun c => ((ks.foldl (fun g k => pushNewCard k.1 g k.2) g).heap c).key) =
      g.deck.map (fun c => (g.heap c).key) ++ ks := by
  induction ks generalizing g with
  | nil => simp [hf, hnd]
  | cons k ks ih =>
    have hn : g.nextId ∉ g.deck := fun h => Nat.lt_irrefl _ (hf _ h)
    have hf1 : (pushNewCard k.1 g k.2).DeckFresh := by
      intro c hc
      show c < g.nextId + 1
      have : c ∈ g.deck ++ [g.nextId] := hc
      rcases List.mem_append.1 this with h | h
      · exact Nat.lt_succ_of_lt (hf c h)
      · simp at h; omega
    have hnd1 : (pushNewCard k.1 g k.2).deck.Nodup := by
      show (g.deck ++ [g.nextId]).Nodup
      exact List.Nodup.append hnd (List.nodup_singleton _) (by simpa using hn)
    obtain ⟨h1, h2, h3⟩ := ih (pushNewCard k.1 g k.2) hf1 hnd1
    simp only [List.foldl_cons]
    refine ⟨h1, h2, ?_⟩
    rw [h3]
    show (g.deck ++ [g.nextId]).map (fun c => ((pushNewCard k.1 g k.2).heap c).key) ++ ks = _
    rw [List.map_append]
    have e1 : g.deck.map (fun c => ((pushNewCard k.1 g k.2).heap c).key) =
        g.deck.map (fun c => (g.heap c).key) := by
      apply List.map_congr_left
      intro c hc
      have : c ≠ g.nextId := fun e => hn (e ▸ hc)
      simp [pushNewCard, Function.update_noteq this]
    rw [e1]
    simp [pushNewCard, Card.key]

theorem createDeck_fold (g : Game) :
    suits.foldl (fun g suit => ranks.foldl (pushNewCard suit) g) g =
      fullDeck.foldl (fun g k => pushNewCard k.1 g k.2) g := by
  simp [suits, fullDeck, List.foldl_append, List.foldl_map]

theorem createDeck_spec (g : Game) (rnd : Rand) :
    (createDeck g rnd).deck.Nodup ∧ (createDeck g rnd).deck.length = 52 ∧
    ((createDeck g rnd).deck.map (fun c => ((createDeck g rnd).heap c).key)).Perm fullDeck := by
  obtain ⟨_, h2, h3⟩ := pushFold_spec fullDeck { g with deck := [] } (by intro c hc; simp at hc)
    (by simp)
  have hcd : createDeck g rnd =
      shuffleDeck (fullDeck.foldl (fun g k => pushNewCard k.1 g k.2) { g with deck := [] })
        rnd := by
    unfold createDeck
    rw [createDeck_fold]
  have hheap : (createDeck g rnd).heap =
      (fullDeck.foldl (fun g k => pushNewCard k.1 g k.2) { g with deck := [] }).heap := by
    rw [hcd]; rfl
  have hdeck : (createDeck g rnd).deck.Perm
      (fullDeck.foldl (fun g k => pushNewCard k.1 g k.2) { g with deck := [] }).deck := by
    rw [hcd]; exact shuffleDeck_perm _ rnd
  refine ⟨hdeck.nodup_iff.2 h2, ?_, ?_⟩
  · rw [hdeck.length_eq]
    have := congrArg List.length h3
    simpa [fullDeck_length] using this
  · rw [hheap]
    refine (hdeck.map _).trans ?_
    rw [h3]
    simp

/-- The piles built by the `addCard` calls of the deal. -/
theorem deal_layout (g g1 : Game) (h28 : 28 ≤ g.deck.length) (hnd : g.deck.Nodup)
    (hg1 : g1 = applyOps { g with piles := fun _ => [] } (dealOps g.deck)) :
      (∀ i : Fin 7,
        g1.piles (PileId.tableau i) =
          (g.deck.drop (i.val * (i.val + 1) / 2)).take (i.val + 1) ∧
        (g1.piles (PileId.tableau i)).length = i.val + 1 ∧
        (g1.cards (PileId.tableau i)).map Card.key =
          ((g.deck.drop (i.val * (i.val + 1) / 2)).take (i.val + 1)).map
            (fun c => (g.heap c).key) ∧
        (g1.cards (PileId.tableau i)).map Card.faceUp = List.replicate i.val false ++ [true]) ∧
      g1.piles PileId.stock = g.deck.drop 28 ∧
      (g1.cards PileId.stock).map Card.key = (g.deck.drop 28).map (fun c => (g.heap c).key) ∧
      (∀ c ∈ g1.cards PileId.stock, c.faceUp = false) ∧
      g1.piles PileId.waste = [] ∧
      (∀ i : Fin 4, g1.piles (PileId.foundation i) = []) := by
  subst hg1
  have hndo : ((dealOps g.deck).map (fun o => o.2.1)).Nodup := by
    rw [dealOps_cards g.deck h28]; exact hnd
  refine ⟨?_, ?_, ?_, ?_, ?_, ?_⟩
  · intro i
    have hb := slot_bound i
    have hdl : ((g.deck.drop (i.val * (i.val + 1) / 2)).take (i.val + 1)).length = i.val + 1 := by
      rw [List.length_take, List.length_drop]; omega
    have hBl : ((List.range (i.val + 1)).map (fun j => (i, j))).length = i.val + 1 := by simp
    have hp : (applyOps { g with piles := fun _ => [] } (dealOps g.deck)).piles (PileId.tableau i)
        = (g.deck.drop (i.val * (i.val + 1) / 2)).take (i.val + 1) := by
      rw [applyOps_piles, dealOps_filter_tableau g.deck h28 i, List.map_map]
      show [] ++ List.map Prod.snd _ = _
      rw [List.nil_append, List.map_snd_zip _ _ (by rw [hdl, hBl])]
    have hc := applyOps_cards (dealOps g.deck) { g with piles := fun _ => [] } (PileId.tableau i)
      hndo (by intro c hc; simp at hc)
    rw [dealOps_filter_tableau g.deck h28 i, List.map_map] at hc
    refine ⟨hp, by rw [hp, hdl], ?_, ?_⟩
    · rw [hc]
      show List.map Card.key ([] ++ _) = _
      rw [List.nil_append, List.map_map]
      conv_rhs => rw [← List.map_snd_zip ((List.range (i.val + 1)).map (fun j => (i, j)))
        ((g.deck.drop (i.val * (i.val + 1) / 2)).take (i.val + 1)) (by rw [hdl, hBl])]
      rw [List.map_map]
      rfl
    · rw [hc]
      show List.map Card.faceUp ([] ++ _) = _
      rw [List.nil_append, List.map_map, ← (dealSlots_block i).2.2.2.2]
      conv_rhs => rw [← List.map_fst_zip ((List.range (i.val + 1)).map (fun j => (i, j)))
        ((g.deck.drop (i.val * (i.val + 1) / 2)).take (i.val + 1)) (by rw [hdl, hBl])]
      rw [List.map_map]
      rfl
  · rw [applyOps_piles, dealOps_filter_stock, List.map_map]
    show [] ++ List.map id _ = _
    simp
  · rw [applyOps_cards _ _ _ hndo (by intro c hc; simp at hc), dealOps_filter_stock]
    show List.map Card.key ([] ++ _) = _
    simp only [List.nil_append, List.map_map]
    rfl
  · intro c hc
    rw [applyOps_cards _ _ _ hndo (by intro c hc; simp at hc), dealOps_filter_stock] at hc
    change c ∈ [] ++ _ at hc
    simp only [List.nil_append, List.map_map, List.mem_map] at hc
    obtain ⟨x, _, rfl⟩ := hc
    rfl
  · rw [applyOps_piles, dealOps_filter_other _ _ (by decide) (by decide)]
    rfl
  · intro i
    rw [applyOps_piles, dealOps_filter_other _ _ (by simp [PileId.type]) (by simp)]
    rfl

theorem addCard_allRefs (g : Game) (p : PileId) (c : Nat) (b : Bool) :
    (addCard g p c b).allRefs.Perm (g.allRefs ++ [c]) := by
  apply flatMap_perm_one g.piles (addCard g p c b).piles p
  · intro r hr
    simp [addCard, Function.update_noteq hr]
  · simp [addCard]

theorem applyOps_allRefs (ops : List (PileId × Nat × Bool)) (g : Game) :
    (applyOps g ops).allRefs.Perm (g.allRefs ++ ops.map (fun o => o.2.1)) := by
  induction ops generalizing g with
  | nil => simp [applyOps]
  | cons o ops ih =>
    show (applyOps (addCard g o.1 o.2.1 o.2.2) ops).allRefs.Perm _
    refine (ih _).trans ?_
    refine ((addCard_allRefs g o.1 o.2.1 o.2.2).append_right _).trans ?_
    simp

theorem inv_congr (g g1 : Game) (hp : g1.piles = g.piles) (hh : g1.heap = g.heap)
    (hs : g1.history = g.history) (h : Inv g) : Inv g1 := by
  have hv : g1.view = g.view := by
    funext p
    show (g1.piles p).map g1.heap = (g.piles p).map g.heap
    rw [hp, hh]
  refine ⟨?_, hv ▸ h.good, hs ▸ h.hist⟩
  show (allPiles.flatMap g1.piles).Nodup
  rw [hp]
  exact h.wf

theorem inv_of_deal (G g1 : Game) (hnd : G.deck.Nodup) (hlen : G.deck.length = 52)
    (hperm : (G.deck.map (fun c => (G.heap c).key)).Perm fullDeck)
    (hg1 : g1 = applyOps { G with piles := fun _ => [] } (dealOps G.deck)) :
    Inv { g1 with moveCount := 0, history := [] } ∧ g1.piles PileId.waste = [] ∧
      (g1.piles PileId.stock).length = 24 := by
  have h28 : 28 ≤ G.deck.length := by omega
  obtain ⟨h1, h2, _, _, h5, h6⟩ := deal_layout G g1 h28 hnd hg1
  have hrefs : g1.allRefs.Perm G.deck := by
    have := applyOps_allRefs (dealOps G.deck) { G with piles := fun _ => [] }
    rw [dealOps_cards _ h28, ← hg1] at this
    have e : Game.allRefs { G with piles := fun _ => [] } = [] := by
      simp [Game.allRefs]
    rw [e, List.nil_append] at this
    exact this
  have hkey : ∀ c, (g1.heap c).key = (G.heap c).key := by
    intro c
    rw [hg1, applyOps_heap_key]
  have hview : ∀ p, Game.view { g1 with moveCount := 0, history := [] } p = g1.cards p :=
    fun _ => rfl
  refine ⟨⟨?_, ⟨?_, ?_, ?_⟩, ?_⟩, h5, ?_⟩
  · exact hrefs.nodup_iff.2 hnd
  · rw [conserved_iff]
    show (g1.allRefs.map (fun c => (g1.heap c).key)).Perm fullDeck
    have e : (fun c => (g1.heap c).key) = fun c => (G.heap c).key := funext hkey
    rw [e]
    exact (hrefs.map _).trans hperm
  · intro i
    rw [hview]
    show FoundationOrdered ((g1.piles (PileId.foundation i)).map g1.heap)
    rw [h6 i]
    exact foundationOrdered_nil
  · intro i
    rw [hview]
    exact tableauOrdered_of_pattern _ i.val (h1 i).2.2.2
  · intro s hs
    simp at hs
  · rw [h2, List.length_drop, hlen]

theorem newGame_spec (g0 : Game) (rnd : Rand) :
    ∃ g1, newGame g0 rnd = some g1 ∧ Inv g1 ∧ g1.moveCount = 0 ∧ g1.history = [] ∧
      g1.piles PileId.waste = [] ∧ (g1.piles PileId.stock).length = 24 := by
  obtain ⟨hnd, hlen, hperm⟩ := createDeck_spec g0 rnd
  have h28 : 28 ≤ (createDeck g0 rnd).deck.length := by omega
  have hnew : newGame g0 rnd = some
      { applyOps { createDeck g0 rnd with piles := fun _ => [] }
          (dealOps (createDeck g0 rnd).deck) with moveCount := 0, history := [] } := by
    unfold newGame
    rw [dealCards_eq _ h28]
  generalize createDeck g0 rnd = G at hnd hlen hperm hnew
  obtain ⟨k1, k2, k3⟩ := inv_of_deal G _ hnd hlen hperm rfl
  exact ⟨_, hnew, k1, rfl, rfl, k2, k3⟩

theorem drawFromStock_frame (g : Game) (hwf : g.WF) :
    (drawFromStock g).allRefs.Perm g.allRefs ∧
    (∀ c, ((drawFromStock g).heap c).key = (g.heap c).key) ∧
    (∀ p, p ≠ PileId.stock → p ≠ PileId.waste → (drawFromStock g).cards p = g.cards p) := by
  obtain ⟨hnd, hdj⟩ := (wf_iff g).1 hwf
  have hne : PileId.stock ≠ PileId.waste := by decide
  rcases List.eq_nil_or_concat (g.piles PileId.stock) with hs | ⟨l, c, hs⟩
  · obtain ⟨h1, h2, h3, h4, _, _⟩ := drawFromStock_recycle g hs (hnd PileId.waste)
    refine ⟨?_, ?_, ?_⟩
    · apply flatMap_perm_two g.piles (drawFromStock g).piles PileId.stock PileId.waste hne h3
      rw [h1, h2, hs]
      simp
    · intro c
      rw [h4]
      exact setFaceUp_key _ _ _ _
    · intro p hp1 hp2
      show ((drawFromStock g).piles p).map (drawFromStock g).heap = _
      rw [h3 p hp1 hp2, h4]
      apply List.map_congr_left
      intro x hx
      exact setFaceUp_of_not_mem _ _ _ _ (fun h => hdj p PileId.waste hp2 hx h)
  · rw [List.concat_eq_append] at hs
    have hcl : c ∉ l := by
      have := hnd PileId.stock
      rw [hs] at this
      exact fun h => (List.nodup_append.1 this).2.2 h (List.mem_singleton_self c)
    have hcs : c ∈ g.piles PileId.stock := by rw [hs]; simp
    obtain ⟨h1, h2, _, _⟩ := drawFromStock_cons g l c hs hcl
    refine ⟨?_, ?_, ?_⟩
    · apply flatMap_perm_two g.piles (drawFromStock g).piles PileId.stock PileId.waste hne
      · intro r hr1 hr2
        rw [h1]; simp [Function.update_noteq hr1, Function.update_noteq hr2]
      · rw [h1, hs]
        simp only [Function.update_same, Function.update_noteq hne]
        rw [List.append_assoc]
        exact List.Perm.append_left _ List.perm_append_comm
    · intro x
      rw [h2]
      exact setFaceUp_key _ _ _ _
    · intro p hp1 hp2
      have hpp : (drawFromStock g).piles p = g.piles p := by
        rw [h1]; simp [Function.update_noteq hp1, Function.update_noteq hp2]
      show ((drawFromStock g).piles p).map (drawFromStock g).heap = _
      rw [hpp, h2]
      apply List.map_congr_left
      intro x hx
      apply setFaceUp_of_not_mem
      intro hxc
      rw [List.mem_singleton] at hxc
      exact hdj p PileId.stock hp1 hx (hxc ▸ hcs)

theorem inv_drawFromStock (g : Game) (h : Inv g) : Inv (drawFromStock g) := by
  obtain ⟨h1, h2, h3⟩ := drawFromStock_frame g h.wf
  refine ⟨wf_of_perm g _ h1 h.wf, ⟨conserved_of_perm g _ h1 h2 h.good.conserved, ?_, ?_⟩, ?_⟩
  · intro i
    have : (drawFromStock g).view (PileId.foundation i) = g.view (PileId.foundation i) :=
      h3 _ (by simp) (by simp)
    rw [this]
    exact h.good.foundation i
  · intro i
    have : (drawFromStock g).view (PileId.tableau i) = g.view (PileId.tableau i) :=
      h3 _ (by simp) (by simp)
    rw [this]
    exact h.good.tableau i
  · intro s hs
    rw [drawFromStock_history] at hs
    rcases List.mem_cons.1 hs with rfl | hs
    · exact h.good
    · exact h.hist s hs

theorem inv_undo (g : Game) (h : Inv g) : Inv (undo g) := by
  cases hh : g.history with
  | nil =>
    have : undo g = g := by
      unfold undo
      rw [hh]
    rw [this]
    exact h
  | cons s rest =>
    obtain ⟨h1, h2, _, h4⟩ := undo_cons g s rest hh
    refine ⟨h4, ?_, ?_⟩
    · rw [h1]
      exact h.hist s (by rw [hh]; simp)
    · intro s' hs'
      rw [h2] at hs'
      exact h.hist s' (by rw [hh]; exact List.mem_cons_of_mem _ hs')

theorem cardsFindByElement_eq (g : Game) (p : PileId) (element : Nat)
    (hel : element ∈ g.piles p) : cardsFindByElement g element = some element := by
  unfold cardsFindByElement
  have hmem : element ∈ g.piles PileId.stock ++ g.piles PileId.waste
      ++ (List.finRange 4).flatMap (fun i => g.piles (PileId.foundation i))
      ++ (List.finRange 7).flatMap (fun i => g.piles (PileId.tableau i)) := by
    cases p with
    | tableau i =>
      apply List.mem_append_right
      exact List.mem_flatMap.2 ⟨i, List.mem_finRange i, hel⟩
    | foundation i =>
      apply List.mem_append_left
      apply List.mem_append_right
      exact List.mem_flatMap.2 ⟨i, List.mem_finRange i, hel⟩
    | stock => simp [hel]
    | waste => simp [hel]
  cases h : List.find? (fun c => decide (c = element)) _ with
  | none =>
    rw [List.find?_eq_none] at h
    exact absurd (by simp) (h element hmem)
  | some x =>
    have := List.find?_some h
    simp only [decide_eq_true_eq] at this
    rw [this]

theorem findPileOfCard_eq (g : Game) (hwf : g.WF) (p : PileId) (element : Nat)
    (hp : p ≠ PileId.stock) (hel : element ∈ g.piles p) :
    findPileOfCard g element = some p := by
  unfold findPileOfCard
  have hmem : p ∈ (List.finRange 7).map PileId.tableau ++ [PileId.waste]
      ++ (List.finRange 4).map PileId.foundation := by
    cases p with
    | tableau i => simp
    | foundation i => simp
    | stock => exact absurd rfl hp
    | waste => simp
  cases h : List.find? (fun p => decide (element ∈ g.piles p)) _ with
  | none =>
    rw [List.find?_eq_none] at h
    exact absurd (by simpa using hel) (h p hmem)
  | some q =>
    have hq := List.find?_some h
    simp only [decide_eq_true_eq] at hq
    by_cases hqp : q = p
    · rw [hqp]
    · exact absurd hel (((wf_iff g).1 hwf).2 q p hqp hq)

theorem slice_indexOf (a r : List Nat) (el : Nat) (h : el ∉ a) :
    slice (a ++ el :: r) (indexOf (a ++ el :: r) el) = el :: r := by
  have hm : el ∈ a ++ el :: r := by simp
  have hi : List.indexOf el (a ++ el :: r) = a.length := by
    rw [List.indexOf_append_of_not_mem h, List.indexOf_cons_self]
    rfl
  unfold indexOf slice
  rw [if_pos hm, hi]
  simp

theorem dragStart_spec (g : Game) (hwf : g.WF) (p : PileId) (a r : List Nat) (el : Nat)
    (hp : p ≠ PileId.stock) (hpile : g.piles p = a ++ el :: r)
    (hf : (g.heap el).faceUp = true) :
    dragStart g el = some (select g el p
      (if p.type = PileType.tableau then (el :: r).filter (fun c => (g.heap c).faceUp)
        else [el])) := by
  have hel : el ∈ g.piles p := by rw [hpile]; simp
  have hna : el ∉ a := by
    have := ((wf_iff g).1 hwf).1 p
    rw [hpile] at this
    intro h
    exact (List.nodup_append.1 this).2.2 h (List.mem_cons_self _ _)
  unfold dragStart select
  rw [if_pos hf, findPileOfCard_eq g hwf p el hp hel, cardsFindByElement_eq g p el hel]
  simp only []
  by_cases ht : p.type = PileType.tableau
  · rw [if_pos ht, if_pos ht, hpile, slice_indexOf a r el hna]
  · rw [if_neg ht, if_neg ht]

theorem applyMove_effect (g : Game) (src t : PileId) (a sel : List Nat) (hne : src ≠ t)
    (hwf : g.WF) (hsel : g.selectedCards = sel) (hpile : g.piles src = a ++ sel) :
    (applyMove g src t).allRefs.Perm g.allRefs ∧
    (∀ c, ((applyMove g src t).heap c).key = (g.heap c).key) ∧
    (applyMove g src t).history = g.view :: g.history ∧
    (∀ p, p ≠ src → p ≠ t → (applyMove g src t).cards p = g.cards p) ∧
    (applyMove g src t).cards t =
      g.cards t ++ sel.map (fun c => { (g.heap c) with faceUp := true }) ∧
    (src.type ≠ PileType.tableau → (applyMove g src t).cards src = a.map g.heap) ∧
    (src.type = PileType.tableau →
      (a = [] ∧ (applyMove g src t).cards src = []) ∨
      ∃ a0 top, a = a0 ++ [top] ∧
        (applyMove g src t).cards src =
          a0.map g.heap ++ [{ (g.heap top) with faceUp := true }]) := by
  obtain ⟨hnd, hdj⟩ := (wf_iff g).1 hwf
  have hnds : (a ++ sel).Nodup := hpile ▸ hnd src
  have hsrc : (g.piles src).diff g.selectedCards = a := by
    have := diff_run a sel [] (by simpa using hnds)
    rw [hsel, hpile]
    simpa using this
  have hpiles := applyMove_piles g src t
  rw [hsrc, hsel] at hpiles
  have hpt : (applyMove g src t).piles t = g.piles t ++ sel := by
    rw [hpiles]
    simp [Function.update_noteq hne.symm]
  have hps : (applyMove g src t).piles src = a := by
    rw [hpiles]
    simp [Function.update_noteq hne]
  have hpo : ∀ p, p ≠ src → p ≠ t → (applyMove g src t).piles p = g.piles p := by
    intro p hp1 hp2
    rw [hpiles]
    simp [Function.update_noteq hp1, Function.update_noteq hp2]
  have hsel_src : ∀ x ∈ sel, x ∈ g.piles src := by
    intro x hx
    rw [hpile]
    exact List.mem_append_right _ hx
  have ha_sel : ∀ x ∈ a, x ∉ sel := fun x hx hs => (List.nodup_append.1 hnds).2.2 hx hs
  have hother : ∀ p, p ≠ src → ∀ x ∈ g.piles p, (applyMove g src t).heap x = g.heap x := by
    intro p hpne x hx
    have hxs : x ∉ g.piles src := fun h => hdj p src hpne hx h
    rw [applyMove_heap_of_not_mem g src t hne x]
    · rw [hsel]
      exact setFaceUp_of_not_mem _ _ _ _ (fun h => hxs (hsel_src x h))
    · rw [hsrc]
      intro h
      exact hxs (by rw [hpile]; exact List.mem_append_left _ h)
  have hheap : (applyMove g src t).heap =
      (reveal (addCards (removeCards (saveState g) src g.selectedCards) t g.selectedCards)
        src).heap := by
    simp only [applyMove, incrementMove, saveState, runCheckWin_heap, removeCards_eq]
  have hpre : ∀ x ∈ a,
      (addCards (removeCards (saveState g) src g.selectedCards) t g.selectedCards).heap x =
        g.heap x := by
    intro x hx
    simp only [removeCards_eq, addCards_eq, saveState]
    rw [hsel]
    exact setFaceUp_of_not_mem _ _ _ _ (ha_sel x hx)
  have htop3 : getTopCard
      (addCards (removeCards (saveState g) src g.selectedCards) t g.selectedCards) src =
        a.getLast? := by
    unfold getTopCard
    simp only [removeCards_eq, addCards_eq, saveState]
    rw [Function.update_noteq hne, Function.update_same, hsrc]
  refine ⟨?_, applyMove_heap_key g src t, applyMove_history g src t, ?_, ?_, ?_, ?_⟩
  · apply flatMap_perm_two g.piles (applyMove g src t).piles src t hne hpo
    rw [hps, hpt, hpile]
    rw [List.append_assoc]
    exact List.Perm.append_left _ List.perm_append_comm
  · intro p hp1 hp2
    show ((applyMove g src t).piles p).map (applyMove g src t).heap = _
    rw [hpo p hp1 hp2]
    exact List.map_congr_left (fun x hx => hother p hp1 x hx)
  · show ((applyMove g src t).piles t).map (applyMove g src t).heap = _
    rw [hpt, List.map_append]
    congr 1
    · exact List.map_congr_left (fun x hx => hother t hne.symm x hx)
    · apply List.map_congr_left
      intro x hx
      rw [applyMove_heap_of_not_mem g src t hne x]
      · rw [hsel]
        exact setFaceUp_of_mem _ _ _ _ hx
      · rw [hsrc]
        exact fun h => ha_sel x h hx
  · intro hnt
    show ((applyMove g src t).piles src).map (applyMove g src t).heap = _
    rw [hps]
    apply List.map_congr_left
    intro x hx
    rw [hheap, reveal_not_tableau _ src hnt, hpre x hx]
  · intro htab
    rcases List.eq_nil_or_concat a with ha | ⟨a0, top, ha⟩
    · left
      refine ⟨ha, ?_⟩
      show ((applyMove g src t).piles src).map (applyMove g src t).heap = _
      rw [hps, ha]
      rfl
    · right
      rw [List.concat_eq_append] at ha
      refine ⟨a0, top, ha, ?_⟩
      have hlast : a.getLast? = some top := by rw [ha]; simp
      have htop_a : top ∈ a := by rw [ha]; simp
      have hnda : (a0 ++ [top]).Nodup := ha ▸ (List.nodup_append.1 hnds).1
      have htop_a0 : top ∉ a0 := fun h =>
        (List.nodup_append.1 hnda).2.2 h (List.mem_singleton_self top)
      show ((applyMove g src t).piles src).map (applyMove g src t).heap = _
      rw [hps, ha, List.map_append]
      congr 1
      · apply List.map_congr_left
        intro x hx
        have hxa : x ∈ a := by rw [ha]; exact List.mem_append_left _ hx
        rw [hheap, reveal_heap_of_ne_top _ src top x (htop3.trans hlast)
          (fun e => htop_a0 (e ▸ hx)), hpre x hxa]
      · simp only [List.map_cons, List.map_nil]
        rw [hheap, reveal_top _ src top htab (htop3.trans hlast), hpre top htop_a]

theorem canMove_foundation_true (g : Game) (card : Nat) (src : Option PileId) (i : Fin 4)
    (h : canMove g card src (PileId.foundation i) = true) :
    g.selectedCards.length ≤ 1 ∧
      ((g.piles (PileId.foundation i) = [] ∧ (g.heap card).rank = 1) ∨
        ∃ top, (g.piles (PileId.foundation i)).getLast? = some top ∧
          (g.heap card).suit = (g.heap top).suit ∧
          (g.heap card).rank = (g.heap top).rank + 1) := by
  unfold canMove getTopCard at h
  by_cases hs : src = some (PileId.foundation i)
  · simp [hs] at h
  · by_cases hl : g.selectedCards.length > 1
    · simp [hs, hl, PileId.type] at h
    · refine ⟨by omega, ?_⟩
      cases hp : (g.piles (PileId.foundation i)).getLast? with
      | none =>
        left
        have he : g.piles (PileId.foundation i) = [] := by simpa using hp
        simp [hs, hl, PileId.type, hp] at h
        exact ⟨he, h⟩
      | some top =>
        right
        simp [hs, hl, PileId.type, hp] at h
        exact ⟨top, rfl, h.1, h.2⟩

theorem canMove_tableau_true (g : Game) (card : Nat) (src : Option PileId) (i : Fin 7)
    (h : canMove g card src (PileId.tableau i) = true) :
    (g.piles (PileId.tableau i) = [] ∧ (g.heap card).rank = 13) ∨
      ∃ top, (g.piles (PileId.tableau i)).getLast? = some top ∧
        (g.heap card).color ≠ (g.heap top).color ∧
        (g.heap card).rank = (g.heap top).rank - 1 := by
  unfold canMove getTopCard at h
  by_cases hs : src = some (PileId.tableau i)
  · simp [hs] at h
  · cases hp : (g.piles (PileId.tableau i)).getLast? with
    | none =>
      left
      have he : g.piles (PileId.tableau i) = [] := by simpa using hp
      simp [hs, PileId.type, hp] at h
      exact ⟨he, h⟩
    | some top =>
      right
      simp [hs, PileId.type, hp] at h
      exact ⟨top, rfl, h.1, h.2⟩

theorem canMove_target (g : Game) (card : Nat) (src : Option PileId) (t : PileId)
    (h : canMove g card src t = true) :
    t.type = PileType.foundation ∨ t.type = PileType.tableau := by
  cases t with
  | tableau i => right; rfl
  | foundation i => left; rfl
  | stock =>
    unfold canMove at h
    split at h <;> simp [PileId.type] at h
  | waste =>
    unfold canMove at h
    split at h <;> simp [PileId.type] at h

/-- The cards picked up by a drag that follows the selection rule. -/
theorem selectable_split (g : Game) (el : Nat) (hsel : Selectable g el) :
    ∃ (p : PileId) (a r : List Nat), p ≠ PileId.stock ∧ g.piles p = a ++ el :: r ∧
      (p.type ≠ PileType.tableau → r = []) := by
  obtain ⟨_, h | h | h⟩ := hsel
  · obtain ⟨i, hi⟩ := h
    obtain ⟨a, r, e⟩ := List.append_of_mem hi
    exact ⟨PileId.tableau i, a, r, by simp, e, fun hn => absurd rfl hn⟩
  · obtain ⟨a, e⟩ := List.getLast?_eq_some_iff.1 h
    exact ⟨PileId.waste, a, [], by simp, e, fun _ => rfl⟩
  · obtain ⟨i, hi⟩ := h
    obtain ⟨a, e⟩ := List.getLast?_eq_some_iff.1 hi
    exact ⟨PileId.foundation i, a, [], by simp, e, fun _ => rfl⟩

theorem faceUp_set_eq (c : Card) (h : c.faceUp = true) : ({ c with faceUp := true } : Card) = c := by
  cases c
  simp only [Card.mk.injEq, true_and]
  exact h.symm

theorem rank_le_of_conserved (g : Game) (h : Conserved g.view) (p : PileId) (c : Nat)
    (hc : c ∈ g.piles p) : 1 ≤ (g.heap c).rank ∧ (g.heap c).rank ≤ 13 := by
  rw [conserved_iff] at h
  have h1 : c ∈ g.allRefs := List.mem_flatMap.2 ⟨p, mem_allPiles p, hc⟩
  have h2 : (g.heap c).key ∈ fullDeck :=
    h.subset (List.mem_map_of_mem (fun c => (g.heap c).key) h1)
  exact (mem_fullDeck _ _).1 h2

/-- With the tableau invariant a drag of a visible card picks up the whole
run from that card to the top. -/
theorem dragStart_inv (g : Game) (h : Inv g) (p : PileId) (a r : List Nat) (el : Nat)
    (hp : p ≠ PileId.stock) (hpile : g.piles p = a ++ el :: r)
    (hr : p.type ≠ PileType.tableau → r = []) (hf : (g.heap el).faceUp = true) :
    dragStart g el = some (select g el p (el :: r)) ∧
      (∀ x ∈ el :: r, (g.heap x).faceUp = true) ∧
      ((el :: r).map g.heap).Chain' Descends := by
  have hspec := dragStart_spec g h.wf p a r el hp hpile hf
  by_cases ht : p.type = PileType.tableau
  · obtain ⟨i, rfl⟩ : ∃ i, p = PileId.tableau i := by
      cases p with
      | tableau i => exact ⟨i, rfl⟩
      | foundation i => exact absurd ht (by simp [PileId.type])
      | stock => exact absurd ht (by simp [PileId.type])
      | waste => exact absurd ht (by simp [PileId.type])
    have hto := h.good.tableau i
    have hcards : g.view (PileId.tableau i) = a.map g.heap ++ g.heap el :: r.map g.heap := by
      show (g.piles (PileId.tableau i)).map g.heap = _
      rw [hpile]; simp
    rw [hcards] at hto
    obtain ⟨h1, h2⟩ := tableauOrdered_suffix _ _ _ hto hf
    have hall : ∀ x ∈ el :: r, (g.heap x).faceUp = true := by
      intro x hx
      apply h1
      have := List.mem_map_of_mem g.heap hx
      simpa using this
    refine ⟨?_, hall, by simpa using h2⟩
    rw [hspec, if_pos ht]
    have : (el :: r).filter (fun c => (g.heap c).faceUp) = el :: r :=
      List.filter_eq_self.2 hall
    rw [this]
  · have hr0 := hr ht
    subst hr0
    refine ⟨?_, ?_, ?_⟩
    · rw [hspec, if_neg ht]
    · intro x hx
      rw [List.mem_singleton] at hx
      rw [hx]; exact hf
    · exact List.chain'_singleton _

theorem good_applyMove (g : Game) (h : Inv g) (p t : PileId) (a r : List Nat) (el : Nat)
    (hpile : g.piles p = a ++ el :: r) (hr : p.type ≠ PileType.tableau → r = [])
    (hsel : g.selectedCards = el :: r)
    (hup : ∀ x ∈ el :: r, (g.heap x).faceUp = true)
    (hch : ((el :: r).map g.heap).Chain' Descends)
    (hm : canMove g el (some p) t = true) :
    Good (applyMove g p t).view := by
  have hne : p ≠ t := canMove_true_ne g el p t hm
  obtain ⟨e1, e2, _, e4, e5, e6, e7⟩ := applyMove_effect g p t a (el :: r) hne h.wf hsel hpile
  have hsel' : (el :: r).map (fun c => ({ (g.heap c) with faceUp := true } : Card)) =
      (el :: r).map g.heap :=
    List.map_congr_left (fun x hx => faceUp_set_eq _ (hup x hx))
  rw [hsel'] at e5
  have hsrc : g.cards p = a.map g.heap ++ (el :: r).map g.heap := by
    show (g.piles p).map g.heap = _
    rw [hpile, List.map_append]
  refine ⟨conserved_of_perm g _ e1 e2 h.good.conserved, ?_, ?_⟩
  · intro j
    show FoundationOrdered ((applyMove g p t).cards (PileId.foundation j))
    by_cases hjt : PileId.foundation j = t
    · -- the target is this foundation
      subst hjt
      obtain ⟨hlen, hcase⟩ := canMove_foundation_true g el (some p) j hm
      have hr0 : r = [] := by
        rw [hsel] at hlen
        simp only [List.length_cons] at hlen
        exact List.length_eq_zero.1 (by omega)
      subst hr0
      rw [e5]
      have hold := h.good.foundation j
      rcases hcase with ⟨hnil, hrank⟩ | ⟨top, htop, hs, hrk⟩
      · have : g.cards (PileId.foundation j) = [] := by
          show (g.piles (PileId.foundation j)).map g.heap = []
          rw [hnil]; rfl
        rw [this]
        exact foundationOrdered_push_empty _ hrank
      · have hlast : (g.cards (PileId.foundation j)).getLast? = some (g.heap top) := by
          show ((g.piles (PileId.foundation j)).map g.heap).getLast? = _
          rw [List.getLast?_map, htop]; rfl
        have hle := (rank_le_of_conserved g h.good.conserved p el (by rw [hpile]; simp)).2
        exact foundationOrdered_push _ _ _ hold hlast hs hrk hle
    · by_cases hjp : PileId.foundation j = p
      · subst hjp
        have hr0 := hr (by simp [PileId.type])
        subst hr0
        rw [e6 (by simp [PileId.type])]
        have hold := h.good.foundation j
        have : g.view (PileId.foundation j) = a.map g.heap ++ [g.heap el] := hsrc
        rw [this] at hold
        exact foundationOrdered_pop _ _ hold
      · rw [e4 _ hjp hjt]
        exact h.good.foundation j
  · intro i
    show TableauOrdered ((applyMove g p t).cards (PileId.tableau i))
    by_cases hit : PileId.tableau i = t
    · subst hit
      rw [e5]
      apply tableauOrdered_append _ _ (h.good.tableau i)
      · intro c hc
        obtain ⟨x, hx, rfl⟩ := List.mem_map.1 hc
        exact hup x hx
      · exact hch
      · intro top hd htop hhd _
        have hhd' : hd = g.heap el := by
          simp only [List.map_cons, List.head?_cons, Option.some.injEq] at hhd
          exact hhd.symm
        subst hhd'
        rcases canMove_tableau_true g el (some p) i hm with ⟨hnil, _⟩ | ⟨topc, ht2, hc2, hr2⟩
        · have : g.view (PileId.tableau i) = [] := by
            show (g.piles (PileId.tableau i)).map g.heap = []
            rw [hnil]; rfl
          rw [this] at htop
          simp at htop
        · have : (g.view (PileId.tableau i)).getLast? = some (g.heap topc) := by
            show ((g.piles (PileId.tableau i)).map g.heap).getLast? = _
            rw [List.getLast?_map, ht2]; rfl
          rw [this] at htop
          cases htop
          exact ⟨hr2, hc2⟩
    · by_cases hip : PileId.tableau i = p
      · subst hip
        have hold := h.good.tableau i
        have hv : g.view (PileId.tableau i) = a.map g.heap ++ (el :: r).map g.heap := hsrc
        rw [hv] at hold
        have hta : TableauOrdered (a.map g.heap) := by
          have := tableauOrdered_take _ (a.map g.heap).length hold
          rwa [List.take_left] at this
        rcases e7 rfl with ⟨_, hc⟩ | ⟨a0, top, ha, hc⟩
        · rw [hc]
          exact tableauOrdered_nil
        · rw [hc]
          apply tableauOrdered_reveal
          rw [ha, List.map_append] at hta
          exact hta
      · rw [e4 _ hip hit]
        exact h.good.tableau i

theorem handleDrop_select (g : Game) (el lead : Nat) (p t : PileId) (rest : List Nat) :
    handleDrop (select g el p (lead :: rest)) t =
      if canMove (select g el p (lead :: rest)) lead (some p) t = true then
        some (clearSelection (applyMove (select g el p (lead :: rest)) p t))
      else some (clearSelection (select g el p (lead :: rest))) := rfl

theorem inv_move (g g1 g2 : Game) (el : Nat) (t : PileId) (h : Inv g)
    (hsel : Selectable g el) (hd : dragStart g el = some g1)
    (hh : handleDrop g1 t = some g2) : Inv g2 := by
  obtain ⟨p, a, r, hp, hpile, hr⟩ := selectable_split g el hsel
  obtain ⟨hds, hup, hch⟩ := dragStart_inv g h p a r el hp hpile hr hsel.1
  rw [hds] at hd
  cases hd
  have hinv1 : Inv (select g el p (el :: r)) := inv_congr g _ rfl rfl rfl h
  rw [handleDrop_select] at hh
  by_cases hm : canMove (select g el p (el :: r)) el (some p) t = true
  · rw [if_pos hm] at hh
    cases hh
    have hgood := good_applyMove _ hinv1 p t a r el hpile hr rfl hup hch hm
    have hne : p ≠ t := canMove_true_ne _ el p t hm
    obtain ⟨e1, _, e3, _⟩ := applyMove_effect _ p t a (el :: r) hne hinv1.wf rfl hpile
    refine inv_congr (applyMove (select g el p (el :: r)) p t) _ rfl rfl rfl
      ⟨wf_of_perm _ _ e1 hinv1.wf, hgood, ?_⟩
    intro s hs
    rw [e3] at hs
    rcases List.mem_cons.1 hs with rfl | hs
    · exact hinv1.good
    · exact hinv1.hist s hs
  · rw [if_neg hm] at hh
    cases hh
    exact inv_congr g _ rfl rfl rfl h

theorem inv_step (g g1 : Game) (h : Inv g) (hs : Step g g1) : Inv g1 := by
  rcases hs with rfl | rfl | ⟨el, t, g2, hsel, hd, hh⟩
  · exact inv_drawFromStock g h
  · exact inv_undo g h
  · exact inv_move g g2 g1 el t h hsel hd hh

theorem inv_reachable (g : Game) (h : Reachable g) : Inv g := by
  obtain ⟨g0, rnd, g1, hnew, hsteps⟩ := h
  obtain ⟨g1', hnew', hinv, _⟩ := newGame_spec g0 rnd
  rw [hnew] at hnew'
  cases hnew'
  induction hsteps with
  | refl => exact hinv
  | tail _ hstep ih => exact inv_step _ _ ih hstep

theorem startGame_eq : newGame blankGame idRand = some startGame := by
  obtain ⟨g1, h, _⟩ := newGame_spec blankGame idRand
  unfold startGame
  rw [h]
  rfl

theorem startGame_reachable : Reachable startGame :=
  ⟨blankGame, idRand, startGame, startGame_eq, Relation.ReflTransGen.refl⟩

theorem reachable_step (g g1 : Game) (h : Reachable g) (hs : Step g g1) : Reachable g1 := by
  obtain ⟨g0, rnd, g2, hn, hr⟩ := h
  exact ⟨g0, rnd, g2, hn, hr.tail hs⟩

theorem reachable_draws (g : Game) (h : Reachable g) (n : Nat) :
    Reachable (drawFromStock^[n] g) := by
  induction n with
  | zero => exact h
  | succ n ih =>
    rw [Function.iterate_succ_apply']
    exact reachable_step _ _ ih (Or.inl rfl)

theorem reachable_undos (g : Game) (h : Reachable g) (n : Nat) :
    Reachable (undo^[n] g) := by
  induction n with
  | zero => exact h
  | succ n ih =>
    rw [Function.iterate_succ_apply']
    exact reachable_step _ _ ih (Or.inr (Or.inl rfl))

theorem split_at_index (l : List Nat) (k el : Nat) (h : l[k]? = some el) :
    l = l.take k ++ el :: l.drop (k + 1) ∧ l.drop k = el :: l.drop (k + 1) := by
  obtain ⟨hk, he⟩ := List.getElem?_eq_some_iff.1 h
  have hd : l.drop k = el :: l.drop (k + 1) := by
    rw [List.drop_eq_getElem_cons hk, he]
  refine ⟨?_, hd⟩
  rw [← hd, List.take_append_drop]

theorem swap_getElem? (d : List Nat) (i j k : Nat) (hi : i < d.length) (hj : j < d.length) :
    (swap d i j)[k]? = if k = j then d[i]? else if k = i then d[j]? else d[k]? := by
  unfold swap
  rw [List.getD_eq_getElem d 0 hi, List.getD_eq_getElem d 0 hj]
  rw [List.getElem?_set, List.getElem?_set]
  by_cases h1 : j = k
  · subst h1
    simp [hj, List.getElem?_eq_getElem hi]
  · have h1' : k ≠ j := fun e => h1 e.symm
    rw [if_neg h1, if_neg h1']
    by_cases h2 : i = k
    · subst h2
      simp [hi, List.getElem?_eq_getElem hj]
    · have h2' : k ≠ i := fun e => h2 e.symm
      rw [if_neg h2, if_neg h2']

theorem shuffleLoop_length (rnd : Rand) (i : Nat) (d : List Nat) :
    (shuffleLoop rnd i d).length = d.length := by
  induction i generalizing d with
  | zero => rfl
  | succ n ih => rw [shuffleLoop, ih, swap_length]

theorem shuffleLoop_getElem?_gt (rnd : Rand) (i : Nat) (d : List Nat) (hi : i < d.length)
    (k : Nat) (hk : i < k) : (shuffleLoop rnd i d)[k]? = d[k]? := by
  induction i generalizing d with
  | zero => rfl
  | succ n ih =>
    have hj : (rnd (n + 1)).val < d.length := by
      have := (rnd (n + 1)).isLt
      omega
    rw [shuffleLoop, ih _ (by rw [swap_length]; omega) (by omega), swap_getElem? d _ _ k hi hj]
    have : (rnd (n + 1)).val < n + 1 + 1 := (rnd (n + 1)).isLt
    rw [if_neg (by omega), if_neg (by omega)]

theorem shuffleLoop_top (rnd : Rand) (n : Nat) (d : List Nat) (hi : n + 1 < d.length) :
    (shuffleLoop rnd (n + 1) d)[n + 1]? = d[(rnd (n + 1)).val]? := by
  have hj : (rnd (n + 1)).val < d.length := by
    have := (rnd (n + 1)).isLt
    omega
  rw [shuffleLoop, shuffleLoop_getElem?_gt rnd n _ (by rw [swap_length]; omega) (n + 1)
    (by omega), swap_getElem? d _ _ _ hi hj]
  by_cases h : n + 1 = (rnd (n + 1)).val
  · rw [if_pos h, ← h]
  · rw [if_neg h, if_pos rfl]

theorem shuffleLoop_congr (r1 r2 : Rand) (i : Nat) (d : List Nat)
    (h : ∀ k, 1 ≤ k → k ≤ i → r1 k = r2 k) : shuffleLoop r1 i d = shuffleLoop r2 i d := by
  induction i generalizing d with
  | zero => rfl
  | succ n ih =>
    rw [shuffleLoop, shuffleLoop, h (n + 1) (by omega) (le_refl _)]
    exact ih _ (fun k h1 h2 => h k h1 (by omega))

theorem shuffleLoop_injective (r1 r2 : Rand) (i : Nat) (d : List Nat) (hnd : d.Nodup)
    (hi : i < d.length) (h : shuffleLoop r1 i d = shuffleLoop r2 i d) :
    ∀ k, 1 ≤ k → k ≤ i → r1 k = r2 k := by
  induction i generalizing d with
  | zero =>
    intro k h1 h2
    omega
  | succ n ih =>
    have hj1 : (r1 (n + 1)).val < d.length := by
      have := (r1 (n + 1)).isLt
      omega
    have htop : d[(r1 (n + 1)).val]? = d[(r2 (n + 1)).val]? := by
      rw [← shuffleLoop_top r1 n d hi, ← shuffleLoop_top r2 n d hi, h]
    have heq : r1 (n + 1) = r2 (n + 1) := Fin.ext (List.getElem?_inj hj1 hnd htop)
    have h' : shuffleLoop r1 n (swap d (n + 1) (r1 (n + 1)).val) =
        shuffleLoop r2 n (swap d (n + 1) (r1 (n + 1)).val) := by
      have := h
      rw [shuffleLoop, shuffleLoop, ← heq] at this
      exact this
    have hnd' : (swap d (n + 1) (r1 (n + 1)).val).Nodup :=
      (swap_perm d _ _ hi hj1).nodup_iff.2 hnd
    intro k h1 h2
    by_cases hk : k = n + 1
    · rw [hk]; exact heq
    · exact ih _ hnd' (by rw [swap_length]; omega) h' k h1 (by omega)

theorem shuffleLoop_surjective (i : Nat) (d : List Nat) (hnd : d.Nodup) (hi : i < d.length)
    (l : List Nat) (hp : l.Perm d) (hgt : ∀ k, i < k → l[k]? = d[k]?) :
    ∃ rnd : Rand, shuffleLoop rnd i d = l := by
  induction i generalizing d with
  | zero =>
    refine ⟨idRand, ?_⟩
    show d = l
    have hlnd : l.Nodup := hp.nodup_iff.2 hnd
    have hlen : l.length = d.length := hp.length_eq
    apply List.ext_getElem?
    intro n
    cases n with
    | succ m => exact (hgt (m + 1) (by omega)).symm
    | zero =>
      have hl0 : 0 < l.length := by omega
      have hmem : l[0] ∈ d := hp.subset (List.getElem_mem hl0)
      obtain ⟨m, hm⟩ := List.mem_iff_getElem?.1 hmem
      cases m with
      | zero => rw [hm, List.getElem?_eq_getElem hl0]
      | succ m =>
        have h1 : l[0]? = l[m + 1]? := by
          rw [hgt (m + 1) (by omega), hm, List.getElem?_eq_getElem hl0]
        have := List.getElem?_inj hl0 hlnd h1
        omega
  | succ n ih =>
    have hlnd : l.Nodup := hp.nodup_iff.2 hnd
    have hlen : l.length = d.length := hp.length_eq
    have hl : n + 1 < l.length := by omega
    have hmem : l[n + 1] ∈ d := hp.subset (List.getElem_mem hl)
    obtain ⟨j, hj⟩ := List.mem_iff_getElem?.1 hmem
    have hjlen : j < d.length := (List.getElem?_eq_some_iff.1 hj).1
    have hjle : j < n + 1 + 1 := by
      by_contra hc
      have h1 : l[n + 1]? = l[j]? := by
        rw [hgt j (by omega), hj, List.getElem?_eq_getElem hl]
      have := List.getElem?_inj hl hlnd h1
      omega
    have hsp := swap_perm d (n + 1) j hi hjlen
    obtain ⟨rnd', hr'⟩ := ih (swap d (n + 1) j) (hsp.nodup_iff.2 hnd)
      (by rw [swap_length]; omega) (hp.trans hsp.symm) (by
        intro k hk
        rw [swap_getElem? d _ _ k hi hjlen]
        by_cases hk1 : k = n + 1
        · subst hk1
          by_cases hkj : n + 1 = j
          · rw [if_pos hkj, List.getElem?_eq_getElem hl, ← hj, ← hkj]
          · rw [if_neg hkj, if_pos rfl, hj, List.getElem?_eq_getElem hl]
        · rw [if_neg (by omega), if_neg hk1]
          exact hgt k (by omega))
    refine ⟨fun k => if h : k = n + 1 then ⟨j, by omega⟩ else rnd' k, ?_⟩
    rw [shuffleLoop]
    simp only [dif_pos]
    rw [← hr']
    apply shuffleLoop_congr
    intro k h1 h2
    have : k ≠ n + 1 := by omega
    simp only [dif_neg this]

/-! ## Claims -/

/-- Claim C1 (conservation): in every state reachable from `newGame` by draws,
undos and attempted moves that follow the selection rule, the cards of the
thirteen piles taken together are a permutation of the 52 canonical
(suit, rank) pairs: no pair occurs twice, there are 52 cards, and a pair occurs
exactly when its rank lies in 1..13. -/
theorem reachable_conservation (g : Game) (h : Reachable g) :
    ((snapCards g.view).map Card.key).Perm fullDeck ∧
    ((snapCards g.view).map Card.key).Nodup ∧
    (snapCards g.view).length = 52 ∧
    (∀ (s : Suit) (r : Int), (s, r) ∈ (snapCards g.view).map Card.key ↔ 1 ≤ r ∧ r ≤ 13) := by
  have hc : ((snapCards g.view).map Card.key).Perm fullDeck := (inv_reachable g h).good.conserved
  have hnd : ((snapCards g.view).map Card.key).Nodup := hc.nodup_iff.2 fullDeck_nodup
  refine ⟨hc, hnd, ?_, ?_⟩
  · have := hc.length_eq
    rw [List.length_map, fullDeck_length] at this
    exact this
  · intro s r
    rw [hc.mem_iff]
    exact mem_fullDeck s r

/-- Instance of claim C1 at the start game after one draw. -/
theorem reachable_conservation_witness :
    Reachable (drawFromStock startGame) ∧
    ((snapCards (drawFromStock startGame).view).map Card.key).Perm fullDeck :=
  ⟨reachable_draws startGame startGame_reachable 1,
    (reachable_conservation (drawFromStock startGame)
      (reachable_draws startGame startGame_reachable 1)).1⟩

/-- Claim C2 (foundation ordering): in every reachable state each foundation
pile holds, bottom to top, the cards `(s,1), (s,2), ..., (s,k)` of one suit `s`
for some `k` between 0 and 13. -/
theorem reachable_foundation_ordered (g : Game) (h : Reachable g) (i : Fin 4) :
    ∃ (suit : Suit) (k : Nat), k ≤ 13 ∧
      (g.cards (PileId.foundation i)).map Card.key =
        (List.range k).map (fun (j : Nat) => (suit, (j : Int) + 1)) :=
  (inv_reachable g h).good.foundation i

/-- Instance of claim C2 at the start game after one draw. -/
theorem reachable_foundation_ordered_witness :
    Reachable (drawFromStock startGame) ∧
    ∃ (suit : Suit) (k : Nat), k ≤ 13 ∧
      ((drawFromStock startGame).cards (PileId.foundation 0)).map Card.key =
        (List.range k).map (fun (j : Nat) => (suit, (j : Int) + 1)) :=
  ⟨reachable_draws startGame startGame_reachable 1,
    reachable_foundation_ordered (drawFromStock startGame)
      (reachable_draws startGame startGame_reachable 1) 0⟩

/-- Claim C3 (tableau invariant): in every reachable state each tableau pile is
a run of face-down cards followed by a run of face-up cards, and in the face-up
run every card has rank one less than, and colour different from, the card
directly beneath it. -/
theorem reachable_tableau_ordered (g : Game) (h : Reachable g) (i : Fin 7) :
    ∃ down up : List Card, g.cards (PileId.tableau i) = down ++ up ∧
      (∀ c ∈ down, c.faceUp = false) ∧ (∀ c ∈ up, c.faceUp = true) ∧
      up.Chain' (fun below above =>
        above.rank = below.rank - 1 ∧ above.color ≠ below.color) :=
  (inv_reachable g h).good.tableau i

/-- Instance of claim C3 at the start game after one draw. -/
theorem reachable_tableau_ordered_witness :
    Reachable (drawFromStock startGame) ∧
    ∃ down up : List Card, (drawFromStock startGame).cards (PileId.tableau 6) = down ++ up ∧
      (∀ c ∈ down, c.faceUp = false) ∧ (∀ c ∈ up, c.faceUp = true) ∧
      up.Chain' (fun below above =>
        above.rank = below.rank - 1 ∧ above.color ≠ below.color) :=
  ⟨reachable_draws startGame startGame_reachable 1,
    reachable_tableau_ordered (drawFromStock startGame)
      (reachable_draws startGame startGame_reachable 1) 6⟩

/-- Claim C4 (undo exactness): for every state with a selection and every legal
move of it, the move is carried out, and an undo right after it gives back the
card sequence and the face orientation of every pile, the move count and the
history stack of the state before the move. -/
theorem undo_handleDrop_exact (g : Game) (src targetPile : PileId) (element leadCard : Nat)
    (rest : List Nat) (hc : g.selectedCard = some element)
    (hs : g.selectedCards = leadCard :: rest) (hp : g.selectedPile = some src)
    (hm : canMove g leadCard (some src) targetPile = true) :
    ∃ g1, handleDrop g targetPile = some g1 ∧
      (undo g1).view = g.view ∧ (∀ p, (undo g1).cards p = g.cards p) ∧
      (undo g1).moveCount = g.moveCount ∧ (undo g1).history = g.history := by
  have hd : handleDrop g targetPile = some (clearSelection (applyMove g src targetPile)) := by
    unfold handleDrop
    rw [hc, hs]
    simp only []
    rw [hp, hm]
    simp
  refine ⟨_, hd, ?_⟩
  · have hh : (clearSelection (applyMove g src targetPile)).history = g.view :: g.history :=
      applyMove_history g src targetPile
    have hmc : (clearSelection (applyMove g src targetPile)).moveCount = g.moveCount + 1 :=
      applyMove_moveCount g src targetPile
    unfold undo
    rw [hh]
    simp only []
    obtain ⟨h1, _, h3, h4⟩ :=
      restoreState_spec { clearSelection (applyMove g src targetPile) with history := g.history }
        g.view
    have hv : ∀ (x : Game) (n : Int), Game.view { x with moveCount := n } = x.view := fun _ _ => rfl
    refine ⟨?_, ?_, ?_, ?_⟩
    · rw [hv]; exact h1
    · intro p
      have := congrFun h1 p
      exact this
    · show (restoreState _ g.view).moveCount - 1 = g.moveCount
      rw [h4]
      show (clearSelection (applyMove g src targetPile)).moveCount - 1 = g.moveCount
      rw [hmc]; ring
    · show (restoreState _ g.view).history = g.history
      rw [h3]

/-- Instance of claim C4: the queen of hearts is moved from the waste onto the
king of spades and the move is undone. -/
theorem undo_handleDrop_exact_witness :
    canMove exampleGame 1 (some PileId.waste) (PileId.tableau 0) = true ∧
    ∃ g1, handleDrop exampleGame (PileId.tableau 0) = some g1 ∧
      (undo g1).view = exampleGame.view ∧ (∀ p, (undo g1).cards p = exampleGame.cards p) ∧
      (undo g1).moveCount = exampleGame.moveCount ∧ (undo g1).history = exampleGame.history :=
  ⟨by decide,
    undo_handleDrop_exact exampleGame PileId.waste (PileId.tableau 0) 1 1 [] rfl rfl rfl
      (by decide)⟩

/-- Claim C5 (draw and recycle cycle): from a state with an empty waste and a
stock of `n` distinct cards, `n` draws empty the stock and put its cards on the
waste in reverse order; one more draw recycles, leaving the waste empty and the
stock with the same cards in the same order, all face-down; and the next `k`
draws, for every `k ≤ n`, give the same waste as the first `k` draws. -/
theorem draw_recycle_cycle (g : Game) (hw : g.piles PileId.waste = [])
    (hnd : (g.piles PileId.stock).Nodup) :
    (drawFromStock^[(g.piles PileId.stock).length] g).piles PileId.stock = [] ∧
    (drawFromStock^[(g.piles PileId.stock).length] g).piles PileId.waste =
      (g.piles PileId.stock).reverse ∧
    (drawFromStock^[(g.piles PileId.stock).length + 1] g).piles PileId.waste = [] ∧
    (drawFromStock^[(g.piles PileId.stock).length + 1] g).piles PileId.stock =
      g.piles PileId.stock ∧
    (drawFromStock^[(g.piles PileId.stock).length + 1] g).cards PileId.stock =
      (g.cards PileId.stock).map (fun c => { c with faceUp := false }) ∧
    (∀ c ∈ (drawFromStock^[(g.piles PileId.stock).length + 1] g).cards PileId.stock,
      c.faceUp = false) ∧
    ∀ k, k ≤ (g.piles PileId.stock).length →
      (drawFromStock^[k] (drawFromStock^[(g.piles PileId.stock).length + 1] g)).piles
          PileId.waste = (drawFromStock^[k] g).piles PileId.waste ∧
      (drawFromStock^[k] (drawFromStock^[(g.piles PileId.stock).length + 1] g)).cards
          PileId.waste = (drawFromStock^[k] g).cards PileId.waste := by
  obtain ⟨a1, a2, _, a4, _⟩ :=
    drawFromStock_iterate (g.piles PileId.stock) g [] (by simp) (by simpa using hnd)
  rw [hw, List.nil_append] at a2
  have hnd2 : ((drawFromStock^[(g.piles PileId.stock).length] g).piles PileId.waste).Nodup := by
    rw [a2]; exact List.nodup_reverse.2 hnd
  obtain ⟨b1, b2, _, b4, _, _⟩ :=
    drawFromStock_recycle (drawFromStock^[(g.piles PileId.stock).length] g) a1 hnd2
  rw [← Function.iterate_succ_apply' drawFromStock] at b1 b2 b4
  rw [a2, List.reverse_reverse] at b2
  rw [a2, a4] at b4
  have hheap : ∀ c ∈ g.piles PileId.stock,
      (drawFromStock^[(g.piles PileId.stock).length + 1] g).heap c =
        { (g.heap c) with faceUp := false } := by
    intro c hc
    rw [b4]
    simp [setFaceUp, hc]
  have hcards : (drawFromStock^[(g.piles PileId.stock).length + 1] g).cards PileId.stock =
      (g.cards PileId.stock).map (fun c => { c with faceUp := false }) := by
    show ((drawFromStock^[(g.piles PileId.stock).length + 1] g).piles PileId.stock).map _ = _
    rw [b2]
    simp only [Game.cards, List.map_map]
    exact List.map_congr_left (fun c hc => hheap c hc)
  refine ⟨a1, a2, b1, b2, hcards, ?_, ?_⟩
  · intro c hc
    rw [hcards] at hc
    obtain ⟨d, _, rfl⟩ := List.mem_map.1 hc
    rfl
  · intro k hk
    have hsplit : g.piles PileId.stock =
        (g.piles PileId.stock).take ((g.piles PileId.stock).length - k) ++
          (g.piles PileId.stock).drop ((g.piles PileId.stock).length - k) :=
      (List.take_append_drop _ _).symm
    have hlen : ((g.piles PileId.stock).drop ((g.piles PileId.stock).length - k)).length = k := by
      rw [List.length_drop]; omega
    have hnd3 : ((g.piles PileId.stock).take ((g.piles PileId.stock).length - k) ++
          (g.piles PileId.stock).drop ((g.piles PileId.stock).length - k)).Nodup := by
      rw [← hsplit]; exact hnd
    obtain ⟨_, c2, _, c4, _⟩ := drawFromStock_iterate _ g _ hsplit hnd3
    obtain ⟨_, d2, _, d4, _⟩ := drawFromStock_iterate _
      (drawFromStock^[(g.piles PileId.stock).length + 1] g) _ (b2.trans hsplit) hnd3
    rw [hlen] at c2 c4 d2 d4
    rw [hw] at c2
    rw [b1] at d2
    refine ⟨d2.trans c2.symm, ?_⟩
    simp only [Game.cards]
    rw [d2, c2, d4, c4]
    apply List.map_congr_left
    intro c hc
    have hc1 : c ∈ (g.piles PileId.stock).drop ((g.piles PileId.stock).length - k) := by
      simpa using hc
    have hc2 : c ∈ g.piles PileId.stock := List.mem_of_mem_drop hc1
    simp only [setFaceUp, hc1, if_true]
    rw [hheap c hc2]

/-- Instance of claim C5 at a stock of three cards. -/
theorem draw_recycle_cycle_witness :
    exampleStock.piles PileId.waste = [] ∧ (exampleStock.piles PileId.stock).Nodup ∧
    (drawFromStock^[3 + 1] exampleStock).piles PileId.waste = [] ∧
    (drawFromStock^[3 + 1] exampleStock).piles PileId.stock = [0, 1, 2] :=
  ⟨rfl, by decide,
    (draw_recycle_cycle exampleStock rfl (by decide)).2.2.1,
    (draw_recycle_cycle exampleStock rfl (by decide)).2.2.2.1⟩

/-- Claim C6 (deal shape): for a deck of 52 distinct cards `dealCards` returns;
tableau pile `i` then holds the `i + 1` cards of the deck from index
`i (i + 1) / 2` on, in deck order, face-down except for the last; the stock
holds the cards of the deck from index 28 on, in deck order, 24 cards, all
face-down; the waste and the foundations are empty. -/
theorem dealCards_shape (g : Game) (hlen : g.deck.length = 52) (hnd : g.deck.Nodup) :
    ∃ g1, dealCards g = some g1 ∧
      (∀ i : Fin 7,
        g1.piles (PileId.tableau i) =
          (g.deck.drop (i.val * (i.val + 1) / 2)).take (i.val + 1) ∧
        (g1.piles (PileId.tableau i)).length = i.val + 1 ∧
        (g1.cards (PileId.tableau i)).map Card.key =
          ((g.deck.drop (i.val * (i.val + 1) / 2)).take (i.val + 1)).map
            (fun c => (g.heap c).key) ∧
        (g1.cards (PileId.tableau i)).map Card.faceUp = List.replicate i.val false ++ [true]) ∧
      g1.piles PileId.stock = g.deck.drop 28 ∧
      (g1.piles PileId.stock).length = 24 ∧
      (g1.cards PileId.stock).map Card.key = (g.deck.drop 28).map (fun c => (g.heap c).key) ∧
      (∀ c ∈ g1.cards PileId.stock, c.faceUp = false) ∧
      g1.piles PileId.waste = [] ∧
      (∀ i : Fin 4, g1.piles (PileId.foundation i) = []) := by
  have h28 : 28 ≤ g.deck.length := by omega
  obtain ⟨h1, h2, h3, h4, h5, h6⟩ := deal_layout g _ h28 hnd rfl
  refine ⟨_, dealCards_eq g h28, h1, h2, ?_, h3, h4, h5, h6⟩
  rw [h2, List.length_drop, hlen]

/-- Instance of claim C6 at the deck of the references 0..51. -/
theorem dealCards_shape_witness :
    exampleDeck.deck.length = 52 ∧ exampleDeck.deck.Nodup ∧
    ∃ g1, dealCards exampleDeck = some g1 ∧
      g1.piles PileId.stock = exampleDeck.deck.drop 28 ∧
      (g1.piles PileId.stock).length = 24 ∧ g1.piles PileId.waste = [] :=
  ⟨List.length_range 52, List.nodup_range 52,
    (dealCards_shape exampleDeck (List.length_range 52) (List.nodup_range 52)).elim
      (fun g1 h => ⟨g1, h.1, h.2.2.1, h.2.2.2.1, h.2.2.2.2.2.2.1⟩)⟩

/-- Claim C7 (foundation legality): for a foundation target `canMove` is true
exactly when source and target differ, the selection holds at most one card,
and either the foundation is empty and the card is an ace, or the card has the
suit of the top card and the next rank; so a selection of more than one card
is always rejected. -/
theorem canMove_foundation_iff (g : Game) (card : Nat) (sourcePile : Option PileId) (i : Fin 4) :
    (canMove g card sourcePile (PileId.foundation i) = true ↔
      sourcePile ≠ some (PileId.foundation i) ∧ g.selectedCards.length ≤ 1 ∧
        ((g.piles (PileId.foundation i) = [] ∧ (g.heap card).rank = 1) ∨
          ∃ top, getTopCard g (PileId.foundation i) = some top ∧
            (g.heap card).suit = (g.heap top).suit ∧
            (g.heap card).rank = (g.heap top).rank + 1)) ∧
    (g.selectedCards.length ≤ 1 ∨ canMove g card sourcePile (PileId.foundation i) = false) := by
  unfold canMove getTopCard
  by_cases hs : sourcePile = some (PileId.foundation i)
  · simp [hs, PileId.type]
  · by_cases hl : g.selectedCards.length > 1
    · simp [hs, hl, PileId.type]
    · have hl2 : g.selectedCards.length ≤ 1 := by omega
      cases hp : (g.piles (PileId.foundation i)).getLast? with
      | none =>
        have : g.piles (PileId.foundation i) = [] := by simpa using hp
        simp [hs, hl, hl2, PileId.type, hp, this]
      | some top =>
        have : g.piles (PileId.foundation i) ≠ [] := by
          intro h; simp [h] at hp
        simp [hs, hl, hl2, PileId.type, hp, this]

/-- Claim C8 (tableau legality): for a tableau target `canMove` is true exactly
when source and target differ and either the pile is empty and the card is a
king, or the card differs in colour from the top card and has the rank just
below it; a card is red exactly when its suit is hearts or diamonds; on an empty
pile from another source a king is never rejected and a queen never accepted. -/
theorem canMove_tableau_iff (g : Game) (card : Nat) (sourcePile : Option PileId) (i : Fin 7) :
    (canMove g card sourcePile (PileId.tableau i) = true ↔
      sourcePile ≠ some (PileId.tableau i) ∧
        ((g.piles (PileId.tableau i) = [] ∧ (g.heap card).rank = 13) ∨
          ∃ top, getTopCard g (PileId.tableau i) = some top ∧
            (g.heap card).color ≠ (g.heap top).color ∧
            (g.heap card).rank = (g.heap top).rank - 1)) ∧
    (∀ c : Card, c.color = Color.red ↔ (c.suit = Suit.hearts ∨ c.suit = Suit.diamonds)) ∧
    ¬ (g.piles (PileId.tableau i) = [] ∧ sourcePile ≠ some (PileId.tableau i) ∧
        (g.heap card).rank = 13 ∧ canMove g card sourcePile (PileId.tableau i) = false) ∧
    ¬ (g.piles (PileId.tableau i) = [] ∧ (g.heap card).rank = 12 ∧
        canMove g card sourcePile (PileId.tableau i) = true) := by
  have hiff : canMove g card sourcePile (PileId.tableau i) = true ↔
      sourcePile ≠ some (PileId.tableau i) ∧
        ((g.piles (PileId.tableau i) = [] ∧ (g.heap card).rank = 13) ∨
          ∃ top, getTopCard g (PileId.tableau i) = some top ∧
            (g.heap card).color ≠ (g.heap top).color ∧
            (g.heap card).rank = (g.heap top).rank - 1) := by
    unfold canMove getTopCard
    by_cases hs : sourcePile = some (PileId.tableau i)
    · simp [hs, PileId.type]
    · cases hp : (g.piles (PileId.tableau i)).getLast? with
      | none =>
        have : g.piles (PileId.tableau i) = [] := by simpa using hp
        simp [hs, PileId.type, hp, this]
      | some top =>
        have : g.piles (PileId.tableau i) ≠ [] := by
          intro h; simp [h] at hp
        simp [hs, PileId.type, hp, this]
  refine ⟨hiff, ?_, ?_, ?_⟩
  · intro c
    unfold Card.color
    by_cases h : c.suit = Suit.hearts ∨ c.suit = Suit.diamonds <;> simp [h]
  · rintro ⟨he, hs, hr, hf⟩
    have := hiff.2 ⟨hs, Or.inl ⟨he, hr⟩⟩
    rw [hf] at this
    exact Bool.noConfusion this
  · rintro ⟨he, hr, ht⟩
    rcases (hiff.1 ht).2 with ⟨_, h13⟩ | ⟨top, htop, _⟩
    · rw [hr] at h13
      exact absurd h13 (by decide)
    · unfold getTopCard at htop
      rw [he] at htop
      simp at htop

/-- Claim C9 (an illegal move does nothing): when `canMove` is false for the
lead card of the selection, which is so in particular for a drop on the source
pile and for a drop on the waste, `handleDrop` leaves every pile, every
orientation, the move count and the history as they are and clears the
selection. -/
theorem handleDrop_illegal_noop (g : Game) (targetPile : PileId) (element leadCard : Nat)
    (rest : List Nat) (hc : g.selectedCard = some element)
    (hs : g.selectedCards = leadCard :: rest)
    (hm : canMove g leadCard g.selectedPile targetPile = false ∨
      g.selectedPile = some targetPile ∨ targetPile = PileId.waste) :
    ∃ g1, handleDrop g targetPile = some g1 ∧
      g1.piles = g.piles ∧ g1.heap = g.heap ∧ g1.view = g.view ∧
      g1.moveCount = g.moveCount ∧ g1.history = g.history ∧
      g1.selectedCard = none ∧ g1.selectedPile = none ∧ g1.selectedCards = [] := by
  have hf : canMove g leadCard g.selectedPile targetPile = false := by
    rcases hm with h | h | h
    · exact h
    · rw [h]; exact canMove_same g leadCard targetPile
    · rw [h]; exact canMove_waste g leadCard g.selectedPile
  refine ⟨clearSelection g, ?_, rfl, rfl, rfl, rfl, rfl, rfl, rfl, rfl⟩
  unfold handleDrop
  rw [hc, hs]
  simp only []
  simp [hf]

/-- Instance of claim C9: the queen of hearts is dropped on an empty tableau
pile. -/
theorem handleDrop_illegal_noop_witness :
    exampleGame.selectedCard = some 1 ∧ exampleGame.selectedCards = 1 :: [] ∧
    (canMove exampleGame 1 exampleGame.selectedPile (PileId.tableau 1) = false ∨
      exampleGame.selectedPile = some (PileId.tableau 1) ∨
      PileId.tableau 1 = PileId.waste) ∧
    ∃ g1, handleDrop exampleGame (PileId.tableau 1) = some g1 ∧
      g1.piles = exampleGame.piles ∧ g1.heap = exampleGame.heap ∧
      g1.view = exampleGame.view ∧
      g1.moveCount = exampleGame.moveCount ∧ g1.history = exampleGame.history ∧
      g1.selectedCard = none ∧ g1.selectedPile = none ∧ g1.selectedCards = [] :=
  ⟨rfl, rfl, Or.inl (by decide),
    handleDrop_illegal_noop exampleGame (PileId.tableau 1) 1 1 [] rfl rfl (Or.inl (by decide))⟩

/-- Claim C10 (legal move transfer): in a state where no card object lies in
two places, a legal move of a selection that is a run of the source pile is
carried out; afterwards the target holds its old cards followed by the
selection in the same order, the source holds its old cards without the
selection in their old order, every other pile is unchanged, the move count is
one higher and the history has one more entry, the piles before the move. -/
theorem handleDrop_legal_transfer (g : Game) (src t : PileId) (element leadCard : Nat)
    (rest a b : List Nat) (hc : g.selectedCard = some element)
    (hs : g.selectedCards = leadCard :: rest) (hp : g.selectedPile = some src)
    (hm : canMove g leadCard (some src) t = true)
    (hrun : g.piles src = a ++ (leadCard :: rest) ++ b) (hwf : g.WF) :
    ∃ g1, handleDrop g t = some g1 ∧
      g1.piles t = g.piles t ++ (leadCard :: rest) ∧
      g1.cards t = g.cards t ++
        (leadCard :: rest).map (fun c => { (g.heap c) with faceUp := true }) ∧
      g1.piles src = a ++ b ∧
      (g1.cards src).map Card.key = ((a ++ b).map g.heap).map Card.key ∧
      (∀ p, p ≠ src → p ≠ t → g1.piles p = g.piles p ∧ g1.cards p = g.cards p) ∧
      g1.moveCount = g.moveCount + 1 ∧
      g1.history = g.view :: g.history := by
  have hne : src ≠ t := canMove_true_ne g leadCard src t hm
  obtain ⟨hnd, hdj⟩ := (wf_iff g).1 hwf
  have hsrc : (g.piles src).diff g.selectedCards = a ++ b := by
    rw [hs, hrun]
    apply diff_run
    rw [← hrun]
    exact hnd src
  have hdrop : handleDrop g t = some (clearSelection (applyMove g src t)) := by
    unfold handleDrop
    rw [hc, hs]
    simp only []
    rw [hp, hm]
    simp
  have hpiles := applyMove_piles g src t
  rw [hsrc] at hpiles
  have hpt : (applyMove g src t).piles t = g.piles t ++ (leadCard :: rest) := by
    rw [hpiles, hs]
    simp [Function.update_noteq hne.symm]
  have hps : (applyMove g src t).piles src = a ++ b := by
    rw [hpiles]
    simp [Function.update_noteq hne]
  have hsel_src : ∀ x ∈ leadCard :: rest, x ∈ g.piles src := by
    intro x hx
    rw [hrun]
    exact List.mem_append_left _ (List.mem_append_right _ hx)
  have hsel_rest : ∀ x ∈ leadCard :: rest, x ∉ a ++ b := by
    intro x hx hab
    have hn := hnd src
    rw [hrun, List.append_assoc, List.nodup_append] at hn
    obtain ⟨_, hsb, hd1⟩ := hn
    rw [List.nodup_append] at hsb
    rcases List.mem_append.1 hab with h | h
    · exact hd1 h (List.mem_append_left _ hx)
    · exact hsb.2.2 hx h
  have hother : ∀ p, p ≠ src → ∀ x ∈ g.piles p, (applyMove g src t).heap x = g.heap x := by
    intro p hpne x hx
    have hxs : x ∉ g.piles src := fun h => hdj p src hpne hx h
    rw [applyMove_heap_of_not_mem g src t hne x]
    · simp only [setFaceUp, hs]
      rw [if_neg]
      exact fun h => hxs (hsel_src x h)
    · rw [hsrc]
      intro h
      apply hxs
      rw [hrun]
      rcases List.mem_append.1 h with h | h
      · exact List.mem_append_left _ (List.mem_append_left _ h)
      · exact List.mem_append_right _ h
  refine ⟨clearSelection (applyMove g src t), hdrop, hpt, ?_, hps, ?_, ?_, ?_, ?_⟩
  · show ((applyMove g src t).piles t).map (applyMove g src t).heap = _
    rw [hpt, List.map_append]
    congr 1
    · exact List.map_congr_left (fun x hx => hother t hne.symm x hx)
    · apply List.map_congr_left
      intro x hx
      rw [applyMove_heap_of_not_mem g src t hne x]
      · simp [setFaceUp, hs, List.mem_cons.1 hx]
      · rw [hsrc]; exact hsel_rest x hx
  · show (((applyMove g src t).piles src).map (applyMove g src t).heap).map Card.key = _
    rw [hps]
    simp only [List.map_map]
    apply List.map_congr_left
    intro x _
    exact applyMove_heap_key g src t x
  · intro p hp1 hp2
    have h1 : (applyMove g src t).piles p = g.piles p := by
      rw [hpiles]
      simp [Function.update_noteq hp1, Function.update_noteq hp2]
    refine ⟨h1, ?_⟩
    show ((applyMove g src t).piles p).map (applyMove g src t).heap = _
    rw [h1]
    exact List.map_congr_left (fun x hx => hother p hp1 x hx)
  · exact applyMove_moveCount g src t
  · exact applyMove_history g src t

/-- Instance of claim C10: the queen of hearts is moved from the waste onto the
king of spades. -/
theorem handleDrop_legal_transfer_witness :
    canMove exampleGame 1 (some PileId.waste) (PileId.tableau 0) = true ∧ exampleGame.WF ∧
    ∃ g1, handleDrop exampleGame (PileId.tableau 0) = some g1 ∧
      g1.piles (PileId.tableau 0) = exampleGame.piles (PileId.tableau 0) ++ (1 :: []) ∧
      g1.cards (PileId.tableau 0) = exampleGame.cards (PileId.tableau 0) ++
        (1 :: []).map (fun c => { (exampleGame.heap c) with faceUp := true }) ∧
      g1.piles PileId.waste = [] ++ [] ∧
      (g1.cards PileId.waste).map Card.key = (([] ++ []).map exampleGame.heap).map Card.key ∧
      (∀ p, p ≠ PileId.waste → p ≠ PileId.tableau 0 →
        g1.piles p = exampleGame.piles p ∧ g1.cards p = exampleGame.cards p) ∧
      g1.moveCount = exampleGame.moveCount + 1 ∧
      g1.history = exampleGame.view :: exampleGame.history :=
  ⟨by decide, by decide,
    handleDrop_legal_transfer exampleGame PileId.waste (PileId.tableau 0) 1 1 [] [] []
      rfl rfl rfl (by decide) (by decide) (by decide)⟩

/-- Claim C11 (reveal): after a legal move from a tableau pile that keeps cards,
the new top card of the source is face-up (unchanged if it was face-up already)
and no other remaining card of the source changes; after a legal move from a
pile that is not a tableau pile no remaining card of the source changes. -/
theorem handleDrop_reveal (g : Game) (src t : PileId) (element leadCard : Nat)
    (rest a b : List Nat) (hc : g.selectedCard = some element)
    (hs : g.selectedCards = leadCard :: rest) (hp : g.selectedPile = some src)
    (hm : canMove g leadCard (some src) t = true)
    (hrun : g.piles src = a ++ (leadCard :: rest) ++ b) (hwf : g.WF) :
    ∃ g1, handleDrop g t = some g1 ∧ g1.piles src = a ++ b ∧
      (src.type = PileType.tableau → ∀ top, (a ++ b).getLast? = some top →
        (g1.heap top).faceUp = true ∧ (g1.heap top).key = (g.heap top).key ∧
        ((g.heap top).faceUp = true → g1.heap top = g.heap top) ∧
        ∀ x ∈ a ++ b, x ≠ top → g1.heap x = g.heap x) ∧
      (src.type ≠ PileType.tableau → ∀ x ∈ a ++ b, g1.heap x = g.heap x) := by
  have hne : src ≠ t := canMove_true_ne g leadCard src t hm
  obtain ⟨hnd, hdj⟩ := (wf_iff g).1 hwf
  have hsrc : (g.piles src).diff g.selectedCards = a ++ b := by
    rw [hs, hrun]
    apply diff_run
    rw [← hrun]
    exact hnd src
  have hdrop : handleDrop g t = some (clearSelection (applyMove g src t)) := by
    unfold handleDrop
    rw [hc, hs]
    simp only []
    rw [hp, hm]
    simp
  have hpiles := applyMove_piles g src t
  rw [hsrc] at hpiles
  have hps : (applyMove g src t).piles src = a ++ b := by
    rw [hpiles]
    simp [Function.update_noteq hne]
  have hrest_sel : ∀ x ∈ a ++ b, x ∉ g.selectedCards := by
    intro x hab hx
    rw [hs] at hx
    have hn := hnd src
    rw [hrun, List.append_assoc, List.nodup_append] at hn
    obtain ⟨_, hsb, hd1⟩ := hn
    rw [List.nodup_append] at hsb
    rcases List.mem_append.1 hab with h | h
    · exact hd1 h (List.mem_append_left _ hx)
    · exact hsb.2.2 hx h
  -- the state before the reveal step
  have hheap : (applyMove g src t).heap =
      (reveal (addCards (removeCards (saveState g) src g.selectedCards) t g.selectedCards)
        src).heap := by
    simp only [applyMove, incrementMove, saveState, runCheckWin_heap, removeCards_eq]
  have hpre : ∀ x ∈ a ++ b,
      (addCards (removeCards (saveState g) src g.selectedCards) t g.selectedCards).heap x =
        g.heap x := by
    intro x hx
    simp only [removeCards_eq, addCards_eq, saveState]
    exact setFaceUp_of_not_mem _ _ _ _ (hrest_sel x hx)
  have htop3 : getTopCard
      (addCards (removeCards (saveState g) src g.selectedCards) t g.selectedCards) src =
        (a ++ b).getLast? := by
    unfold getTopCard
    simp only [removeCards_eq, addCards_eq, saveState]
    rw [Function.update_noteq hne, Function.update_same, hsrc]
  refine ⟨clearSelection (applyMove g src t), hdrop, hps, ?_, ?_⟩
  · intro htab top ht
    have hmem : top ∈ a ++ b := List.mem_of_getLast?_eq_some ht
    have e : (applyMove g src t).heap top = { (g.heap top) with faceUp := true } := by
      rw [hheap, reveal_top _ src top htab (htop3.trans ht), hpre top hmem]
    refine ⟨?_, ?_, ?_, ?_⟩
    · show ((applyMove g src t).heap top).faceUp = true
      rw [e]
    · show ((applyMove g src t).heap top).key = _
      rw [e]; rfl
    · intro hf
      show (applyMove g src t).heap top = _
      rw [e, ← hf]
    · intro x hx hxt
      show (applyMove g src t).heap x = _
      rw [hheap, reveal_heap_of_ne_top _ src top x (htop3.trans ht) hxt, hpre x hx]
  · intro hnt x hx
    show (applyMove g src t).heap x = _
    rw [hheap, reveal_not_tableau _ src hnt, hpre x hx]

/-- Instance of claim C11: the queen is moved off a face-down card, which is
turned face-up. -/
theorem handleDrop_reveal_witness :
    canMove exampleReveal 1 (some (PileId.tableau 0)) (PileId.tableau 1) = true ∧
    exampleReveal.WF ∧ (exampleReveal.heap 2).faceUp = false ∧
    ∃ g1, handleDrop exampleReveal (PileId.tableau 1) = some g1 ∧
      g1.piles (PileId.tableau 0) = [2] ∧ (g1.heap 2).faceUp = true :=
  ⟨by decide, by decide, by decide,
    (handleDrop_reveal exampleReveal (PileId.tableau 0) (PileId.tableau 1) 1 1 [] [2] []
      rfl rfl rfl (by decide) (by decide) (by decide)).elim
      (fun g1 h => ⟨g1, h.1, h.2.1, (h.2.2.1 rfl 2 rfl).1⟩)⟩

/-- Claim C12 (draw from a non-empty stock): when the stock is `l` with the
card `c` on top, a draw leaves `l` in the stock unchanged, puts `c` face-up on
top of the unchanged waste, leaves every other pile unchanged and adds one to
the move count. -/
theorem drawFromStock_nonempty (g : Game) (l : List Nat) (c : Nat)
    (hs : g.piles PileId.stock = l ++ [c]) (hwf : g.WF) :
    (drawFromStock g).piles PileId.stock = l ∧
    (drawFromStock g).cards PileId.stock = l.map g.heap ∧
    (drawFromStock g).piles PileId.waste = g.piles PileId.waste ++ [c] ∧
    (drawFromStock g).cards PileId.waste =
      g.cards PileId.waste ++ [{ (g.heap c) with faceUp := true }] ∧
    (∀ p, p ≠ PileId.stock → p ≠ PileId.waste →
      (drawFromStock g).piles p = g.piles p ∧ (drawFromStock g).cards p = g.cards p) ∧
    (drawFromStock g).moveCount = g.moveCount + 1 := by
  obtain ⟨hnd, hdj⟩ := (wf_iff g).1 hwf
  have hcl : c ∉ l := by
    have := hnd PileId.stock
    rw [hs] at this
    exact fun h => (List.nodup_append.1 this).2.2 h (List.mem_singleton_self c)
  have hcs : c ∈ g.piles PileId.stock := by rw [hs]; simp
  obtain ⟨h1, h2, h3, _⟩ := drawFromStock_cons g l c hs hcl
  have hne : PileId.stock ≠ PileId.waste := by decide
  have hold : ∀ x, x ≠ c → (drawFromStock g).heap x = g.heap x := by
    intro x hx
    rw [h2]
    exact setFaceUp_of_not_mem _ _ _ _ (by simpa using hx)
  have hps : (drawFromStock g).piles PileId.stock = l := by
    rw [h1]; simp [Function.update_noteq hne]
  have hpw : (drawFromStock g).piles PileId.waste = g.piles PileId.waste ++ [c] := by
    rw [h1]; simp
  refine ⟨hps, ?_, hpw, ?_, ?_, h3⟩
  · show ((drawFromStock g).piles PileId.stock).map (drawFromStock g).heap = _
    rw [hps]
    exact List.map_congr_left (fun x hx => hold x (fun e => hcl (e ▸ hx)))
  · show ((drawFromStock g).piles PileId.waste).map (drawFromStock g).heap = _
    rw [hpw, List.map_append]
    congr 1
    · apply List.map_congr_left
      intro x hx
      exact hold x (fun e => hdj PileId.waste PileId.stock hne.symm hx (e ▸ hcs))
    · rw [h2]
      simp [setFaceUp]
  · intro p hp1 hp2
    have hpp : (drawFromStock g).piles p = g.piles p := by
      rw [h1]; simp [Function.update_noteq hp1, Function.update_noteq hp2]
    refine ⟨hpp, ?_⟩
    show ((drawFromStock g).piles p).map (drawFromStock g).heap = _
    rw [hpp]
    apply List.map_congr_left
    intro x hx
    exact hold x (fun e => hdj p PileId.stock hp1 hx (e ▸ hcs))

/-- Instance of claim C12 at a stock of one card. -/
theorem drawFromStock_nonempty_witness :
    exampleGame.piles PileId.stock = [] ++ [2] ∧ exampleGame.WF ∧
    (drawFromStock exampleGame).piles PileId.stock = [] ∧
    (drawFromStock exampleGame).piles PileId.waste = exampleGame.piles PileId.waste ++ [2] ∧
    (drawFromStock exampleGame).moveCount = exampleGame.moveCount + 1 :=
  ⟨by decide, by decide,
    (drawFromStock_nonempty exampleGame [] 2 (by decide) (by decide)).1,
    (drawFromStock_nonempty exampleGame [] 2 (by decide) (by decide)).2.2.1,
    (drawFromStock_nonempty exampleGame [] 2 (by decide) (by decide)).2.2.2.2.2⟩

/-- Claim C13 (recycle): when the stock is empty a draw ends with the waste
empty and the stock holding the cards of the old waste in reverse order, all
face-down; every other pile and the move count are unchanged; the loop is done
after as many iterations as the waste held cards. -/
theorem drawFromStock_recycles (g : Game) (hs : g.piles PileId.stock = []) (hwf : g.WF) :
    (drawFromStock g).piles PileId.waste = [] ∧
    (drawFromStock g).piles PileId.stock = (g.piles PileId.waste).reverse ∧
    (drawFromStock g).cards PileId.stock =
      (g.cards PileId.waste).reverse.map (fun c => { c with faceUp := false }) ∧
    (∀ c ∈ (drawFromStock g).cards PileId.stock, c.faceUp = false) ∧
    (∀ p, p ≠ PileId.stock → p ≠ PileId.waste →
      (drawFromStock g).piles p = g.piles p ∧ (drawFromStock g).cards p = g.cards p) ∧
    (drawFromStock g).moveCount = g.moveCount ∧
    (∀ fuel, (g.piles PileId.waste).length ≤ fuel →
      (recycleLoop fuel (saveState g)).piles PileId.waste = [] ∧
      (recycleLoop fuel (saveState g)).piles PileId.stock = (g.piles PileId.waste).reverse) := by
  obtain ⟨hnd, hdj⟩ := (wf_iff g).1 hwf
  obtain ⟨h1, h2, h3, h4, h5, _⟩ := drawFromStock_recycle g hs (hnd PileId.waste)
  have hcards : (drawFromStock g).cards PileId.stock =
      (g.cards PileId.waste).reverse.map (fun c => { c with faceUp := false }) := by
    show ((drawFromStock g).piles PileId.stock).map (drawFromStock g).heap = _
    rw [h2, h4]
    simp only [Game.cards, ← List.map_reverse, List.map_map]
    apply List.map_congr_left
    intro x hx
    rw [setFaceUp_of_mem _ _ _ _ (by simpa using hx)]
    rfl
  refine ⟨h1, h2, hcards, ?_, ?_, h5, ?_⟩
  · intro c hc
    rw [hcards] at hc
    obtain ⟨d, _, rfl⟩ := List.mem_map.1 hc
    rfl
  · intro p hp1 hp2
    refine ⟨h3 p hp1 hp2, ?_⟩
    show ((drawFromStock g).piles p).map (drawFromStock g).heap = _
    rw [h3 p hp1 hp2, h4]
    apply List.map_congr_left
    intro x hx
    exact setFaceUp_of_not_mem _ _ _ _ (fun h => hdj p PileId.waste hp2 hx h)
  · intro fuel hf
    obtain ⟨k1, k2, _⟩ := recycleLoop_spec (g.piles PileId.waste) (saveState g) fuel rfl
      (hnd PileId.waste) hf
    refine ⟨k1, ?_⟩
    rw [k2]
    simp [saveState, hs]

/-- Instance of claim C13 at the start game after 24 draws. -/
theorem drawFromStock_recycles_witness :
    (drawFromStock^[24] startGame).piles PileId.stock = [] ∧
    (drawFromStock^[24] startGame).WF ∧
    (drawFromStock (drawFromStock^[24] startGame)).piles PileId.waste = [] ∧
    (drawFromStock (drawFromStock^[24] startGame)).piles PileId.stock =
      ((drawFromStock^[24] startGame).piles PileId.waste).reverse :=
  ⟨by decide, (inv_reachable _ (reachable_draws startGame startGame_reachable 24)).wf,
    (drawFromStock_recycles (drawFromStock^[24] startGame) (by decide)
      (inv_reachable _ (reachable_draws startGame startGame_reachable 24)).wf).1,
    (drawFromStock_recycles (drawFromStock^[24] startGame) (by decide)
      (inv_reachable _ (reachable_draws startGame startGame_reachable 24)).wf).2.1⟩

/-- Claim C14 as stated fails: in the won position, where stock and waste are
empty, a draw makes the history one entry longer, and an undo after the draw
lowers the move count although an undo without the draw changes nothing. -/
theorem drawFromStock_empty_counterexample :
    wonGame.piles PileId.stock = [] ∧ wonGame.piles PileId.waste = [] ∧
    wonGame.history.length = 0 ∧ (drawFromStock wonGame).history.length = 1 ∧
    (undo wonGame).moveCount = 120 ∧ (undo (drawFromStock wonGame)).moveCount = 119 := by
  decide

/-- Claim C14, amended (empty draw): when stock and waste are both empty a draw
leaves every pile, every orientation and the move count unchanged, and it
pushes one snapshot of the unchanged piles onto the history. -/
theorem drawFromStock_empty (g : Game) (hs : g.piles PileId.stock = [])
    (hw : g.piles PileId.waste = []) :
    (drawFromStock g).piles = g.piles ∧ (drawFromStock g).heap = g.heap ∧
    (drawFromStock g).view = g.view ∧ (drawFromStock g).moveCount = g.moveCount ∧
    (drawFromStock g).history = g.view :: g.history := by
  have h : drawFromStock g = saveState g := by
    unfold drawFromStock
    simp [show (saveState g).piles = g.piles from rfl, hs, hw, recycleLoop]
  rw [h]
  exact ⟨rfl, rfl, rfl, rfl, rfl⟩

/-- Instance of the amended claim C14 at the won position. -/
theorem drawFromStock_empty_witness :
    wonGame.piles PileId.stock = [] ∧ wonGame.piles PileId.waste = [] ∧
    (drawFromStock wonGame).piles = wonGame.piles ∧
    (drawFromStock wonGame).moveCount = wonGame.moveCount ∧
    (drawFromStock wonGame).history = wonGame.view :: wonGame.history :=
  ⟨rfl, rfl, (drawFromStock_empty wonGame rfl rfl).1, (drawFromStock_empty wonGame rfl rfl).2.2.2.1,
    (drawFromStock_empty wonGame rfl rfl).2.2.2.2⟩

/-- Claim C15 fails on the code: from the start game 24 draws empty the stock,
the 25th draw recycles without counting a move, and 25 undos then take the move
count from 24 to -1 in a reachable state. -/
theorem moveCount_negative :
    Reachable (undo^[25] (drawFromStock^[25] startGame)) ∧
    (drawFromStock^[25] startGame).moveCount = 24 ∧
    (drawFromStock^[25] startGame).history.length = 25 ∧
    (undo^[25] (drawFromStock^[25] startGame)).moveCount = -1 :=
  ⟨reachable_undos _ (reachable_draws startGame startGame_reachable 25) 25,
    by decide, by decide, by decide⟩

/-- Claim C16 (unbiased shuffle): with one index `rnd i` in `[0, i]` for every
`i`, `shuffleDeck` on a deck of `n` distinct cards returns a permutation of the
deck; two index sequences that give the same ordering agree at every index
`i = 1, ..., n-1` used by the loop; and every one of the `n!` orderings of the
deck is the result for some index sequence.  So the map from index sequences to
orderings is a bijection, and uniform independent indices make all orderings
equally likely. -/
theorem shuffleDeck_bijection (g : Game) (hnd : g.deck.Nodup) :
    (∀ rnd : Rand, (shuffleDeck g rnd).deck.Perm g.deck) ∧
    (∀ r1 r2 : Rand, (shuffleDeck g r1).deck = (shuffleDeck g r2).deck →
      ∀ i, 1 ≤ i → i ≤ g.deck.length - 1 → r1 i = r2 i) ∧
    (∀ l : List Nat, l ∈ g.deck.permutations → ∃ rnd : Rand, (shuffleDeck g rnd).deck = l) ∧
    g.deck.permutations.length = g.deck.length.factorial := by
  refine ⟨fun rnd => shuffleDeck_perm g rnd, ?_, ?_, List.length_permutations _⟩
  · intro r1 r2 h i h1 h2
    have hi : g.deck.length - 1 < g.deck.length := by omega
    exact shuffleLoop_injective r1 r2 _ g.deck hnd hi h i h1 h2
  · intro l hl
    have hp : l.Perm g.deck := List.mem_permutations.1 hl
    cases hd : g.deck with
    | nil =>
      refine ⟨idRand, ?_⟩
      show shuffleLoop idRand (g.deck.length - 1) g.deck = l
      rw [hd] at hp ⊢
      rw [List.perm_nil.1 hp]
      rfl
    | cons a t =>
      have hi : g.deck.length - 1 < g.deck.length := by rw [hd]; simp
      have hlen : l.length = g.deck.length := hp.length_eq
      have hgt : ∀ k, g.deck.length - 1 < k → l[k]? = g.deck[k]? := by
        intro k hk
        rw [List.getElem?_eq_none (by omega), List.getElem?_eq_none (by omega)]
      obtain ⟨rnd, hr⟩ := shuffleLoop_surjective _ g.deck hnd hi l hp hgt
      exact ⟨rnd, hr⟩

/-- Instance of claim C16 at the deck of the references 0..51. -/
theorem shuffleDeck_bijection_witness :
    exampleDeck.deck.Nodup ∧
    (∀ rnd : Rand, (shuffleDeck exampleDeck rnd).deck.Perm exampleDeck.deck) ∧
    exampleDeck.deck.permutations.length = exampleDeck.deck.length.factorial :=
  ⟨List.nodup_range 52, (shuffleDeck_bijection exampleDeck (List.nodup_range 52)).1,
    (shuffleDeck_bijection exampleDeck (List.nodup_range 52)).2.2.2⟩

/-- Claim C17 (win predicate): `checkWin` holds exactly when each of the four
foundations has 13 cards and fails exactly when some foundation has another
number of cards; the alert is raised in the first case only. -/
theorem checkWin_iff (g : Game) :
    (checkWin g = true ↔ ∀ i : Fin 4, (g.piles (PileId.foundation i)).length = 13) ∧
    (checkWin g = false ↔ ∃ i : Fin 4, (g.piles (PileId.foundation i)).length ≠ 13) ∧
    ((runCheckWin g).alerts = g.alerts + 1 ↔
      ∀ i : Fin 4, (g.piles (PileId.foundation i)).length = 13) ∧
    ((runCheckWin g).alerts = g.alerts ↔
      ∃ i : Fin 4, (g.piles (PileId.foundation i)).length ≠ 13) := by
  have h1 : checkWin g = true ↔ ∀ i : Fin 4, (g.piles (PileId.foundation i)).length = 13 := by
    simp [checkWin]
  have h2 : checkWin g = false ↔ ∃ i : Fin 4, (g.piles (PileId.foundation i)).length ≠ 13 := by
    rw [← Bool.not_eq_true, h1]
    push_neg
    rfl
  refine ⟨h1, h2, ?_, ?_⟩
  · rw [← h1]
    unfold runCheckWin
    by_cases h : checkWin g = true
    · simp [h]
    · simp [h]
  · rw [← h2]
    unfold runCheckWin
    by_cases h : checkWin g = true
    · simp [h]
    · simp [h]

/-- Claim C18 (tableau selection rule): in every reachable state, dragging a
face-up card at index `k` of a tableau pile selects exactly the cards of that
pile from index `k` to the top, in pile order; all of them are face-up, so the
face-up filter removes nothing. -/
theorem dragStart_tableau_run (g : Game) (h : Reachable g) (i : Fin 7) (k el : Nat)
    (hk : (g.piles (PileId.tableau i))[k]? = some el)
    (hf : (g.heap el).faceUp = true) :
    ∃ g1, dragStart g el = some g1 ∧
      g1.selectedCards = (g.piles (PileId.tableau i)).drop k ∧
      g1.selectedCards.head? = some el ∧
      g1.selectedPile = some (PileId.tableau i) ∧
      g1.selectedCard = some el ∧
      (∀ x ∈ (g.piles (PileId.tableau i)).drop k, (g.heap x).faceUp = true) ∧
      ((g.piles (PileId.tableau i)).drop k).filter (fun c => (g.heap c).faceUp) =
        (g.piles (PileId.tableau i)).drop k ∧
      g1.piles = g.piles ∧ g1.heap = g.heap := by
  obtain ⟨e1, e2⟩ := split_at_index _ k el hk
  obtain ⟨hds, hup, _⟩ := dragStart_inv g (inv_reachable g h) (PileId.tableau i)
    ((g.piles (PileId.tableau i)).take k) ((g.piles (PileId.tableau i)).drop (k + 1)) el
    (by simp) e1 (fun hn => absurd rfl hn) hf
  rw [← e2] at hds hup
  refine ⟨_, hds, rfl, ?_, rfl, rfl, hup, List.filter_eq_self.2 hup, rfl, rfl⟩
  show ((g.piles (PileId.tableau i)).drop k).head? = some el
  rw [e2]
  rfl

/-- Instance of claim C18: the top card of tableau pile 6 of the start game. -/
theorem dragStart_tableau_run_witness :
    Reachable startGame ∧ (startGame.piles (PileId.tableau 6))[6]? = some 27 ∧
    (startGame.heap 27).faceUp = true ∧
    ∃ g1, dragStart startGame 27 = some g1 ∧
      g1.selectedCards = (startGame.piles (PileId.tableau 6)).drop 6 :=
  ⟨startGame_reachable, by decide, by decide,
    (dragStart_tableau_run startGame startGame_reachable 6 6 27 (by decide) (by decide)).elim
      (fun g1 h => ⟨g1, h.1, h.2.1⟩)⟩

/-- Claim C19 as stated fails: after two draws from the start game the waste
holds the cards 51 and 50 with 50 on top, and a drag of card 51, which lies
beneath the top, builds the selection `[51]`. -/
theorem dragStart_single_counterexample :
    Reachable (drawFromStock^[2] startGame) ∧
    (drawFromStock^[2] startGame).piles PileId.waste = [51, 50] ∧
    getTopCard (drawFromStock^[2] startGame) PileId.waste = some 50 ∧
    ∃ g1, dragStart (drawFromStock^[2] startGame) 51 = some g1 ∧ g1.selectedCards = [51] ∧
      g1.selectedPile = some PileId.waste ∧
      getTopCard (drawFromStock^[2] startGame) PileId.waste ≠ g1.selectedCards.head? := by
  have hr := reachable_draws startGame startGame_reachable 2
  have hw : (drawFromStock^[2] startGame).piles PileId.waste = [51, 50] := by decide
  have hds := dragStart_spec (drawFromStock^[2] startGame) (inv_reachable _ hr).wf PileId.waste
    [] [50] 51 (by decide) hw (by decide)
  rw [if_neg (by decide)] at hds
  refine ⟨hr, hw, by decide, _, hds, rfl, rfl, ?_⟩
  show getTopCard (drawFromStock^[2] startGame) PileId.waste ≠ some 51
  decide

/-- Claim C19, amended (single-card selection): in every reachable state,
dragging a face-up card that lies in the waste or in a foundation selects
exactly one card, the dragged card itself, with that pile as the source; the
handler does not look at the position of the card in its pile. -/
theorem dragStart_single (g : Game) (h : Reachable g) (p : PileId) (el : Nat)
    (hp : p = PileId.waste ∨ ∃ i, p = PileId.foundation i) (hel : el ∈ g.piles p)
    (hf : (g.heap el).faceUp = true) :
    ∃ g1, dragStart g el = some g1 ∧ g1.selectedCards = [el] ∧
      g1.selectedPile = some p ∧ g1.selectedCard = some el ∧
      g1.piles = g.piles ∧ g1.heap = g.heap := by
  obtain ⟨a, r, e⟩ := List.append_of_mem hel
  have hps : p ≠ PileId.stock := by
    rcases hp with rfl | ⟨i, rfl⟩ <;> simp
  have hpt : p.type ≠ PileType.tableau := by
    rcases hp with rfl | ⟨i, rfl⟩ <;> simp [PileId.type]
  have hds := dragStart_spec g (inv_reachable g h).wf p a r el hps e hf
  rw [if_neg hpt] at hds
  exact ⟨_, hds, rfl, rfl, rfl, rfl, rfl⟩

/-- Instance of the amended claim C19: the top card of the waste after two
draws. -/
theorem dragStart_single_witness :
    Reachable (drawFromStock^[2] startGame) ∧
    50 ∈ (drawFromStock^[2] startGame).piles PileId.waste ∧
    ((drawFromStock^[2] startGame).heap 50).faceUp = true ∧
    ∃ g1, dragStart (drawFromStock^[2] startGame) 50 = some g1 ∧ g1.selectedCards = [50] ∧
      g1.selectedPile = some PileId.waste :=
  ⟨reachable_draws startGame startGame_reachable 2, by decide, by decide,
    (dragStart_single (drawFromStock^[2] startGame)
      (reachable_draws startGame startGame_reachable 2) PileId.waste 50 (Or.inl rfl)
      (by decide) (by decide)).elim (fun g1 h => ⟨g1, h.1, h.2.1, h.2.2.1⟩)⟩

/-- Claim C20 (snapshot on every draw): in every state, whatever the stock and
the waste hold, a draw pushes exactly one snapshot, equal to the piles before
the draw, onto the history; an undo right after the draw gives back the card
sequence and orientation of every pile and the history. -/
theorem drawFromStock_snapshot (g : Game) :
    (drawFromStock g).history = g.view :: g.history ∧
    (undo (drawFromStock g)).view = g.view ∧
    (∀ p, (undo (drawFromStock g)).cards p = g.cards p) ∧
    (undo (drawFromStock g)).history = g.history := by
  obtain ⟨h1, h2, _, _⟩ := undo_cons (drawFromStock g) g.view g.history (drawFromStock_history g)
  exact ⟨drawFromStock_history g, h1, fun p => congrFun h1 p, h2⟩

end Solitaire
